import Mathlib

set_option maxRecDepth 100000

/-!
Verification of the GP-Tag encoder core (`src/encoder/tag_encoder.py`).

The development shallowly embeds `create_fiducial_marker` and
`fill_reserved_area`:

* Python floats are modelled as exact rationals (`ℚ`); `int(...)` is
  truncation toward zero (`pyInt`). Where IEEE-754 rounding itself is
  at issue — the quantizers — a second model computes in binary64
  (`F64`: integer mantissa times power of two, every operation rounded
  to nearest with ties to even).
* Python binary strings produced by `format(v, '0nb')` are modelled as
  lists of `BChar` (a binary digit or a leading minus sign), matching
  CPython's formatting of negative integers.
* `int(s, 2)`, `int.to_bytes`, and the Reed-Solomon codec are modelled
  with the same failure behaviour (`ValueError` vs `OverflowError`) as
  the Python code; `except ValueError: return None` is reproduced in
  `create_fiducial_marker`.
* The 21x21 module grid is a function `ℕ → ℕ → ℕ` indexed `row, col`
  (numpy order `grid[y, x]`), updated exactly along the source's loops.
-/

/-- Truncation toward zero of a rational, the behaviour of Python `int(...)`
applied to a real number. -/
def pyInt (q : ℚ) : ℤ := if q < 0 then -Rat.floor (-q) else Rat.floor q

/-! ## Quantizer

Source lines 203-216: each real field is shifted, scaled and truncated.
The expressions below are literal transcriptions with the double
arithmetic idealized as exact rational arithmetic; the IEEE-754 rounded
counterparts (`lat_valueF` .. `scale_valueF`) are defined further down,
and the two can differ by one count away from the range endpoints. -/

/-- Quantized latitude: `int((latitude + 90) * ((2**35 - 1) / 180))`. -/
def lat_value (latitude : ℚ) : ℤ := pyInt ((latitude + 90) * ((2 ^ 35 - 1) / 180))

/-- Quantized longitude: `int((longitude + 180) * ((2**36 - 1) / 360))`. -/
def lon_value (longitude : ℚ) : ℤ := pyInt ((longitude + 180) * ((2 ^ 36 - 1) / 360))

/-- Quantized altitude: `int((altitude + 10000) * ((2**25 - 1) / 20000))`. -/
def alt_value (altitude : ℚ) : ℤ := pyInt ((altitude + 10000) * ((2 ^ 25 - 1) / 20000))

/-- Quantized quaternion component: `int((q + 1) * ((2**16 - 1) / 2))`. -/
def quat_value (q : ℚ) : ℤ := pyInt ((q + 1) * ((2 ^ 16 - 1) / 2))

/-- Quantized scale: `int(scale * ((2**16 - 1) / 3.6))`; `3.6 = 18/5`. -/
def scale_value (scale : ℚ) : ℤ := pyInt (scale * ((2 ^ 16 - 1) / (18 / 5)))

/-! ## Binary strings

`format(v, '0nb')` yields the binary digits of `|v|` left-padded with
zeros to width `n` (sign included in the width for negative `v`, which
CPython renders as a leading minus). -/

/-- Big-endian binary digits of `v` in exactly `n` positions (the low `n`
bits of `v`, most significant first). -/
def natToBits : ℕ → ℕ → List Bool
  | 0, _ => []
  | n + 1, v => natToBits n (v / 2) ++ [v % 2 == 1]

/-- Value of a big-endian digit list. -/
def bitsToNat (bs : List Bool) : ℕ := bs.foldl (fun a b => 2 * a + (if b then 1 else 0)) 0

/-- Minimal binary digits of `v`, most significant first, via fuel (the fuel
`v` is always sufficient since `v < 2 ^ v`). -/
def natBitsFuel : ℕ → ℕ → List Bool
  | 0, _ => []
  | f + 1, v => if v = 0 then [] else natBitsFuel f (v / 2) ++ [v % 2 == 1]

/-- Number of binary digits of `v` (0 for 0), as Python `v.bit_length()`. -/
def bitLen (v : ℕ) : ℕ := (natBitsFuel v v).length

/-- Digits of `format(v, '0nb')` for a nonnegative value: at least `n`
positions, more when the value needs them. -/
def pyBinDigits (v : ℕ) (n : ℕ) : List Bool := natToBits (max n (bitLen v)) v

/-- Character of a Python binary string: a digit or the minus sign. -/
inductive BChar where
  | bit (b : Bool)
  | minus
deriving DecidableEq

/-- Model of `format(v, '0nb')` for an integer `v`: for negative values
CPython emits a minus sign followed by the digits of `|v|` padded to
total width `n`. -/
def pyFormat (v : ℤ) (n : ℕ) : List BChar :=
  if v < 0 then BChar.minus :: (pyBinDigits (-v).toNat (n - 1)).map BChar.bit
  else (pyBinDigits v.toNat n).map BChar.bit

/-- Errors a Python expression in the encoder's `try` block can raise. -/
inductive PyErr where
  | valueError
  | overflowError
deriving DecidableEq

/-- Digit characters of a binary string, dropping any sign characters. -/
def bcharDigits (s : List BChar) : List Bool :=
  s.filterMap (fun c => match c with
    | BChar.bit b => some b
    | BChar.minus => none)

/-- Test that a character is a binary digit. -/
def isDigitChar (c : BChar) : Bool := c matches BChar.bit _

/-- Model of `int(s, 2)`: an optional leading minus followed by at least
one binary digit; any other shape (in the encoder: a minus sign that is
not at the head) raises `ValueError`. -/
def pyIntBase2 (s : List BChar) : Except PyErr ℤ :=
  match s with
  | [] => .error .valueError
  | BChar.minus :: rest =>
    if rest.all isDigitChar ∧ rest ≠ [] then .ok (-(bitsToNat (bcharDigits rest) : ℤ))
    else .error .valueError
  | _ =>
    if s.all isDigitChar then .ok ((bitsToNat (bcharDigits s) : ℤ))
    else .error .valueError

/-- Big-endian base-256 digits of `v` in exactly `n` bytes. -/
def natToBytes : ℕ → ℕ → List ℕ
  | 0, _ => []
  | n + 1, v => natToBytes n (v / 256) ++ [v % 256]

/-- Model of `v.to_bytes(n, 'big')`: raises `OverflowError` when `v` is
negative or does not fit in `n` bytes. -/
def pyToBytes (v : ℤ) (n : ℕ) : Except PyErr (List ℕ) :=
  if v < 0 then .error .overflowError
  else if v < 2 ^ (8 * n) then .ok (natToBytes n v.toNat)
  else .error .overflowError

/-- Bits of one byte, `format(byte, '08b')`. -/
def byteBits (b : ℕ) : List Bool := natToBits 8 b

/-- Bits of a byte string, `''.join(format(byte, '08b') for byte in data)`. -/
def bytesToBits (bs : List ℕ) : List Bool := bs.flatMap byteBits

/-! ## Reed-Solomon over GF(256)

Modelled from the spec: the encoder calls the external `reedsolo`
library (`RSCodec(nsym)`), which is not part of this repository. Per
spec section 4.3 it is Reed-Solomon over GF(256) with primitive
polynomial `0x11d`, first consecutive root 0 and generator element 2,
systematic: the codeword is the message followed by `nsym` ECC bytes
(the remainder of `msg * x^nsym` by the generator polynomial). -/

/-- Bitwise xor of two bytes via fuel recursion (fuel 16 covers all values
below 2^16, far beyond the field's byte range). -/
def bxorFuel : ℕ → ℕ → ℕ → ℕ
  | 0, _, _ => 0
  | f + 1, a, b => if a = 0 ∧ b = 0 then 0 else bxorFuel f (a / 2) (b / 2) * 2 + (a + b) % 2

/-- Byte xor, the GF(256) addition. -/
def bxor (a b : ℕ) : ℕ := bxorFuel 16 a b

/-- Multiplication by the generator element 2 (x) in GF(256), reducing by
the primitive polynomial 0x11d. -/
def xtime (a : ℕ) : ℕ := if a * 2 ≥ 256 then bxor (a * 2) 0x11d else a * 2

/-- Powers of the generator element 2 in GF(256). -/
def gfExp2 : ℕ → ℕ
  | 0 => 1
  | i + 1 => xtime (gfExp2 i)

/-- GF(256) product by shift-and-add with reduction. -/
def gfMulAux : ℕ → ℕ → ℕ → ℕ → ℕ
  | 0, _, _, acc => acc
  | f + 1, a, b, acc =>
    gfMulAux f (xtime a) (b / 2) (if b % 2 = 1 then bxor acc a else acc)

/-- GF(256) multiplication. -/
def gfMul (a b : ℕ) : ℕ := gfMulAux 8 a b 0

/-- Product of a polynomial (coefficient list, highest degree first) with
the binomial `x + r`. -/
def polyMulBinom (p : List ℕ) (r : ℕ) : List ℕ :=
  (p ++ [0]).zipWith (fun hi lo => bxor hi (gfMul r lo)) (0 :: p)

/-- Reed-Solomon generator polynomial: the product of `(x - alpha^i)` for
`i` below `nsym`. -/
def rsGenPoly : ℕ → List ℕ
  | 0 => [1]
  | n + 1 => polyMulBinom (rsGenPoly n) (gfExp2 n)

/-- One step of the synthetic division: feed a message byte through the
ECC register. -/
def rsStep (genTail : List ℕ) (w : List ℕ) (m : ℕ) : List ℕ :=
  let coef := bxor (w.headD 0) m
  (w.tail ++ [0]).zipWith (fun wv g => bxor wv (gfMul g coef)) genTail

/-- ECC bytes: remainder of `msg * x^nsym` modulo the generator polynomial. -/
def rsEcc (nsym : ℕ) (msg : List ℕ) : List ℕ :=
  msg.foldl (rsStep (rsGenPoly nsym).tail) (List.replicate nsym 0)

/-- Systematic Reed-Solomon codeword: message followed by ECC bytes
(`RSCodec(nsym).encode`; messages here are 23 and 2 bytes, one chunk). -/
def rsEncode (nsym : ℕ) (msg : List ℕ) : List ℕ := msg ++ rsEcc nsym msg

/-! ## Grid layout (source lines 177-199)

The 21x21 grid is a function `row → col → value` (numpy `grid[y, x]`),
initialized to ones, with finder patterns and timing patterns written
by the same loops as the source. -/

/-- Module grid, indexed `grid row col` like numpy `grid[y, x]`. -/
def Grid : Type := ℕ → ℕ → ℕ

/-- Write one module: `grid[y, x] = v`. -/
def setG (g : Grid) (y x : ℕ) (v : ℕ) : Grid :=
  fun r c => if r = y ∧ c = x then v else g r c

/-- The 5x5 finder pattern literal from `place_finder_pattern`. -/
def finderPattern : List (List ℕ) :=
  [[1,1,1,1,1],
   [1,0,0,0,1],
   [1,0,1,0,1],
   [1,0,0,0,1],
   [1,1,1,1,1]]

/-- Write the finder pattern block `grid[y:y+5, x:x+5] = pattern`. -/
def place_finder_pattern (x y : ℕ) (g : Grid) : Grid :=
  fun r c =>
    if y ≤ r ∧ r < y + 5 ∧ x ≤ c ∧ c < x + 5 then
      ((finderPattern.getD (r - y) []).getD (c - x) 0)
    else g r c

/-- Timing value: `1 if i % 2 == 0 else 0`. -/
def timingVal (i : ℕ) : ℕ := if i % 2 = 0 then 1 else 0

/-- Timing loop, `for i in range(5, 16): grid[5, i] = ...; grid[i, 5] = ...`. -/
def addTiming (g : Grid) : Grid :=
  (List.range' 5 11).foldl (fun g i => setG (setG g 5 i (timingVal i)) i 5 (timingVal i)) g

/-- Grid after initialization, finder patterns and timing patterns
(source lines 178-199): ones, then four corner finders, then timing. -/
def layoutGrid : Grid :=
  addTiming
    (place_finder_pattern 16 16
      (place_finder_pattern 0 16
        (place_finder_pattern 16 0
          (place_finder_pattern 0 0 (fun _ _ => 1)))))

/-- Reservation predicate from source lines 242-245 (`grid_size - 6 = 15`):
corner 5x5 blocks, column 5 and row 5. -/
def reservedModule (x y : ℕ) : Bool :=
  (x < 5 && y < 5) || (x < 5 && y > 15) || (x > 15 && y < 5) || (x > 15 && y > 15) ||
    (x == 5) || (y == 5)

/-- Rows visited inside one column: `for y in range(20, -1, -1)`. -/
def rowOrder : List ℕ := (List.range 21).reverse

/-- Columns visited: `for x in range(20, -1, -1)` (x = 6 is skipped inside
the loop body). -/
def colOrder : List ℕ := (List.range 21).reverse

/-- Inner placement loop over one column: place the next bit in each
non-reserved module, `break` when the bits run out. The second component
is the list of bits still to place. -/
def placeColumn (x : ℕ) : Grid → List ℕ → List Bool → Grid × List Bool
  | g, [], bits => (g, bits)
  | g, y :: ys, bits =>
    if reservedModule x y then placeColumn x g ys bits
    else
      match bits with
      | [] => (g, [])
      | b :: rest => placeColumn x (setG g y x (if b then 1 else 0)) ys rest

/-- Outer placement loop over the columns, skipping `x = 6`, breaking when
all bits are consumed (source lines 247-259). -/
def placeAll : Grid → List ℕ → List Bool → Grid × List Bool
  | g, [], bits => (g, bits)
  | g, x :: xs, bits =>
    if x = 6 then placeAll g xs bits
    else
      let p := placeColumn x g rowOrder bits
      if p.2.isEmpty then p else placeAll p.1 xs p.2

/-- Grid after payload placement. -/
def placedGrid (bits : List Bool) : Grid := (placeAll layoutGrid colOrder bits).1

/-- Non-reserved rows of a column, in visit order. -/
def visitCol (x : ℕ) : List ℕ := rowOrder.filter (fun y => !reservedModule x y)

/-- Cells visited by the payload traversal, in order, as `(x, y)` pairs. -/
def payloadTraversal : List (ℕ × ℕ) :=
  (colOrder.filter (fun x => x ≠ 6)).flatMap (fun x => (visitCol x).map (fun y => (x, y)))

/-! ## The encoder pipeline (source lines 201-259)

`tryEncodeInts` is the body of the `try` block after the five `int(...)`
quantizations; `tryEncode` composes it with the quantizer; and
`create_fiducial_marker` reproduces `except ValueError: return None`
(any other exception propagates out of the function). -/

/-- Data carried by a successful encode. -/
structure TagData where
  main_data_bits : List BChar
  main_encoded_data : List ℕ
  encoded_bits : List Bool
  id_encoded_data : List ℕ
  id_encoded_bits : List Bool
  grid : Grid

/-- Body of the source's `try` block, given the already-quantized integer
field values (source lines 203-237 and the placement loop). Each fallible
Python expression is an explicit `Except` match: an error aborts the rest
of the block, as an exception does. -/
def tryEncodeInts (latV lonV altV : ℤ) (quatV : List ℤ) (accuracy scaleV tag_id version_id : ℤ) :
    Except PyErr TagData :=
  let main_data_bits := pyFormat latV 35 ++ pyFormat lonV 36 ++ pyFormat altV 25 ++
    quatV.flatMap (fun qv => pyFormat qv 16) ++ pyFormat accuracy 2 ++ pyFormat scaleV 16
  let main_data_bytes := (main_data_bits.length + 7) / 8
  let main_ecc_bytes := (main_data_bytes + 1) / 2
  Except.bind (pyIntBase2 main_data_bits) (fun main_data_int =>
  Except.bind (pyToBytes main_data_int main_data_bytes) (fun main_data_bytes_array =>
  let main_encoded_data := rsEncode main_ecc_bytes main_data_bytes_array
  let encoded_bits := bytesToBits main_encoded_data
  Except.bind (pyIntBase2 (pyFormat tag_id 12 ++ pyFormat version_id 4)) (fun id_raw =>
  Except.bind (pyToBytes id_raw 2) (fun id_encoded_bytes =>
  let id_encoded_data := rsEncode 1 id_encoded_bytes
  Except.ok { main_data_bits := main_data_bits
              main_encoded_data := main_encoded_data
              encoded_bits := encoded_bits
              id_encoded_data := id_encoded_data
              id_encoded_bits := bytesToBits id_encoded_data
              grid := placedGrid encoded_bits }))))

/-- The `try` block with the quantizer applied to the real inputs. -/
def tryEncode (latitude longitude altitude : ℚ) (quaternion : List ℚ)
    (scale : ℚ) (accuracy tag_id version_id : ℤ) : Except PyErr TagData :=
  tryEncodeInts (lat_value latitude) (lon_value longitude) (alt_value altitude)
    (quaternion.map quat_value) accuracy (scale_value scale) tag_id version_id

/-- Result of a call to `create_fiducial_marker`: a tag image, the value
`None` (returned by the `except ValueError` handler), or an uncaught
exception terminating the call. -/
inductive EncodeOutcome where
  | image (d : TagData)
  | noneReturned
  | raised (e : PyErr)

/-- Whether the call returned an image. -/
def EncodeOutcome.isImage : EncodeOutcome → Bool
  | .image _ => true
  | _ => false

/-- Whether the call terminated with the given uncaught exception. -/
def EncodeOutcome.raisedErr : EncodeOutcome → Option PyErr
  | .raised e => some e
  | _ => none

/-- Dispatch of the `try` block result: `ValueError` is caught by the
`except ValueError` handler which returns `None`; any other exception (in
particular `OverflowError` from `to_bytes`) is not caught and terminates
the call. The image rendering itself cannot fail. -/
def dispatchOutcome : Except PyErr TagData → EncodeOutcome
  | .ok d => .image d
  | .error .valueError => .noneReturned
  | .error .overflowError => .raised .overflowError

/-- Model of `create_fiducial_marker` at the data level (see
`dispatchOutcome` directly above for the try/except dispatch). -/
def create_fiducial_marker (latitude longitude altitude : ℚ) (quaternion : List ℚ)
    (scale : ℚ) (accuracy tag_id version_id : ℤ) : EncodeOutcome :=
  dispatchOutcome
    (tryEncode latitude longitude altitude quaternion scale accuracy tag_id version_id)

/-! ## Rendering colors (source lines 261-338)

The module-drawing loop paints each module `'black' if grid[y, x] == 1
else 'white'` (both branches of the loop compute this same expression;
`used_cells` is initialized to 0 and never incremented, and
`len(encoded_bits) = 280 > 0`, so the non-reserved branch always
executes its assignment). -/

/-- Pixel colors of the binary output. -/
inductive Color where
  | black
  | white
deriving DecidableEq

/-- Color painted for a module of the 21x21 grid. -/
def moduleColor (g : Grid) (y x : ℕ) : Color :=
  if g y x = 1 then Color.black else Color.white

/-- The 38 mirrored cell pairs of `fill_reserved_area`, verbatim. -/
def cell_pairs : List ((ℕ × ℕ) × (ℕ × ℕ)) :=
  [((15,32), (21,4)), ((16,32), (20,4)), ((17,32), (19,4)),
   ((18,32), (18,4)), ((19,32), (17,4)), ((20,32), (16,4)),
   ((21,32), (15,4)), ((14,31), (22,5)), ((15,31), (21,5)),
   ((16,31), (20,5)), ((17,31), (19,5)), ((18,31), (18,5)),
   ((19,31), (17,5)), ((20,31), (16,5)), ((21,31), (15,5)),
   ((22,31), (14,5)), ((17,30), (19,6)), ((18,30), (18,6)),
   ((19,30), (17,6)), ((4,15), (32,21)), ((4,16), (32,20)),
   ((4,17), (32,19)), ((4,18), (32,18)), ((4,19), (32,17)),
   ((4,20), (32,16)), ((4,21), (32,15)), ((5,14), (31,22)),
   ((5,15), (31,21)), ((5,16), (31,20)), ((5,17), (31,19)),
   ((5,18), (31,18)), ((5,19), (31,17)), ((5,20), (31,16)),
   ((5,21), (31,15)), ((5,22), (31,14)), ((6,17), (30,19)),
   ((6,18), (30,18)), ((6,19), (30,17))]

/-- Index of the pair whose cells include `c` (each cell occurs in exactly
one pair, see `cell_pairs_cells_nodup`). -/
def coveringIndex (c : ℕ × ℕ) : Option ℕ :=
  cell_pairs.findIdx? (fun pr => decide (pr.1 = c ∨ pr.2 = c))

/-- Bit assigned to a reserved-area cell by `fill_reserved_area`, when the
loop guard `i < len(id_encoded_bits)` lets its pair be filled. -/
def assignedBit (idBits : List Bool) (c : ℕ × ℕ) : Option Bool :=
  match coveringIndex c with
  | some i => if i < idBits.length then some (idBits.getD i false) else none
  | none => none

/-! ## Geometry of the composite under the reserved-area cells

Coordinates are measured from the image origin in half-module units
(`U/2` pixels), which makes every quantity an integer: the 36-cell
coordinate system of `fill_reserved_area` starts at
`origin - 18*U - U/2`, so cell `(cx, cy)` has its center at
`((2*cx - 36, 2*cy - 36))` half-units from the origin. The spike
triangles have apexes `(±36, ∓36)` (corners, `R_outer = 18U`) and base
vertices at the grid-edge midpoints `(±21, 0)`, `(0, ±21)`
(`grid_half_size = 21U/2`). Radii: snapshot disk 30 (`15U`), inner
annulus 32 (`16U`), middle annulus 34 (`17U`), outer disk 36 (`18U`). -/

/-- Center of a 36-grid cell, in half-module units from the origin. -/
def cellCenter (c : ℕ × ℕ) : ℤ × ℤ := (2 * (c.1 : ℤ) - 36, 2 * (c.2 : ℤ) - 36)

/-- Cross product of differences, the orientation test. -/
def cross (o a b : ℤ × ℤ) : ℤ :=
  (a.1 - o.1) * (b.2 - o.2) - (a.2 - o.2) * (b.1 - o.1)

/-- Closed point-in-triangle test: the point is not strictly on both sides. -/
def inTriangle (a b c p : ℤ × ℤ) : Bool :=
  let d1 := cross a b p
  let d2 := cross b c p
  let d3 := cross c a p
  !(((d1 < 0 || d2 < 0 || d3 < 0)) && ((d1 > 0 || d2 > 0 || d3 > 0)))

/-- The four spike triangles (tip, then the two border middle points), in
the source's order: top-right, top-left, bottom-left, bottom-right. -/
def spikeTriangles : List ((ℤ × ℤ) × (ℤ × ℤ) × (ℤ × ℤ)) :=
  [((36, -36), (21, 0), (0, -21)),
   ((-36, -36), (0, -21), (-21, 0)),
   ((-36, 36), (-21, 0), (0, 21)),
   ((36, 36), (0, 21), (21, 0))]

/-- Whether a point lies in some spike triangle. -/
def inSpike (p : ℤ × ℤ) : Bool :=
  spikeTriangles.any (fun t => inTriangle t.1 t.2.1 t.2.2 p)

/-- Annulus quadrant bits from the source's `quadrants` table; angles are
clockwise from +x with y pointing down, so 0-90 degrees is the quadrant
with both coordinates nonnegative. Returns `(middle_bit, inner_bit)`. -/
def quadrantBits (p : ℤ × ℤ) : ℕ × ℕ :=
  if 0 ≤ p.1 ∧ 0 ≤ p.2 then (1, 1)
  else if p.1 ≤ 0 ∧ 0 ≤ p.2 then (1, 0)
  else if p.1 ≤ 0 ∧ p.2 ≤ 0 then (0, 1)
  else (0, 0)

/-- Color of the rendered composite at an interior point, before the 21x21
module grid and the reserved-area pairs are painted on top: inside the
snapshot disk the restored content is the white interior with the black
spikes; then the two annulus rings, the outer black disk, and the spikes
where they extend past the disk toward the image corners. -/
def pointColorPre (p : ℤ × ℤ) : Color :=
  let r2 := p.1 * p.1 + p.2 * p.2
  if r2 ≤ 30 * 30 then (if inSpike p then Color.black else Color.white)
  else if r2 ≤ 32 * 32 then (if (quadrantBits p).2 = 1 then Color.black else Color.white)
  else if r2 ≤ 34 * 34 then (if (quadrantBits p).1 = 1 then Color.black else Color.white)
  else if r2 ≤ 36 * 36 || inSpike p then Color.black
  else Color.white

/-- Whether the center of a 36-grid cell lies under the 21x21 module grid
(which spans 21 half-units each way from the origin). -/
def underMainGrid (c : ℕ × ℕ) : Bool :=
  (cellCenter c).1.natAbs < 21 && (cellCenter c).2.natAbs < 21

/-- Color of the rendered image at the center of a 36-grid cell: the last
painting operation covering that point wins — the reserved-area fill for
cells of a filled pair, else a module of the 21x21 grid, else the
composite below. `g` is the module grid, `idBits` the reserved codeword
bits. The module index of a covered center is `(cx - 8, cy - 8)`. -/
def centerColor (idBits : List Bool) (g : Grid) (c : ℕ × ℕ) : Color :=
  (assignedBit idBits c).elim
    (if underMainGrid c then moduleColor g (c.2 - 8) (c.1 - 8)
     else pointColorPre (cellCenter c))
    (fun b => if b then Color.black else Color.white)

/-! ## Placement as a list of assignments

`placeColumn`/`placeAll` above are the literal loops; the following
equivalent view (proved equivalent below) pairs traversal cells with
bits for reasoning about individual modules. -/

/-- Number of modules visited in one column. -/
def colCount (x : ℕ) : ℕ := (visitCol x).length

/-- Total number of modules visited by the traversal over the given
column list. -/
def traversalCount (xs : List ℕ) : ℕ :=
  ((xs.filter (fun x => x ≠ 6)).map colCount).sum

/-- Cells visited over a column list, in order. -/
def visitList (xs : List ℕ) : List (ℕ × ℕ) :=
  (xs.filter (fun x => x ≠ 6)).flatMap (fun x => (visitCol x).map (fun y => (x, y)))

/-- Apply a list of cell-bit assignments to a grid (cell `(x, y)` receives
the module value of the bit). -/
def setMany (g : Grid) (ps : List ((ℕ × ℕ) × Bool)) : Grid :=
  ps.foldl (fun g p => setG g p.1.2 p.1.1 (if p.2 then 1 else 0)) g

/-! ## Closed forms of the successful pipeline -/

/-- The 178 data bits produced from in-range quantized values. -/
def mainDigits (latV lonV altV q1 q2 q3 q4 acc scaleV : ℤ) : List Bool :=
  natToBits 35 latV.toNat ++ natToBits 36 lonV.toNat ++ natToBits 25 altV.toNat ++
    (natToBits 16 q1.toNat ++ (natToBits 16 q2.toNat ++ (natToBits 16 q3.toNat ++
      (natToBits 16 q4.toNat ++ [])))) ++ natToBits 2 acc.toNat ++ natToBits 16 scaleV.toNat

/-- The 23-byte main payload of in-range quantized values. -/
def mainBytes23 (latV lonV altV q1 q2 q3 q4 acc scaleV : ℤ) : List ℕ :=
  natToBytes 23 (bitsToNat (mainDigits latV lonV altV q1 q2 q3 q4 acc scaleV))

/-- The 35-byte main codeword of in-range quantized values. -/
def mainCodeword (latV lonV altV q1 q2 q3 q4 acc scaleV : ℤ) : List ℕ :=
  rsEncode 12 (mainBytes23 latV lonV altV q1 q2 q3 q4 acc scaleV)

/-- The 16 reserved data bits of an in-range tag and version. -/
def idDigits (tag ver : ℤ) : List Bool :=
  natToBits 12 tag.toNat ++ natToBits 4 ver.toNat

/-- The 3-byte reserved codeword of an in-range tag and version. -/
def idCodeword (tag ver : ℤ) : List ℕ :=
  rsEncode 1 (natToBytes 2 (bitsToNat (idDigits tag ver)))

/-! ## IEEE-754 binary64 model of the quantizer arithmetic

The quantizer definitions above idealize Python floats as exact
rationals.  The source, however, computes with IEEE-754 binary64
("double") values, and every addition, multiplication and division is
rounded to the nearest representable double (ties to even).  The
definitions below model a finite double as an integer mantissa times an
integer power of two (`F64`), with unbounded exponent: this covers every
normal double exactly and is faithful for all magnitudes that occur in
the quantizers (roughly `2 ^ -51` to `2 ^ 61`, far from both overflow
and subnormal range).  `roundMantissa` is correct rounding of a positive
integer ratio to the 53 significant bits of binary64, ties to even;
`flAdd`, `flMul`, `flDiv` are the rounded operations and `intF` is
Python `int(...)` truncation of a double. -/

/-- A finite IEEE-754 binary64 value `m * 2 ^ e` (mantissa, exponent). -/
abbrev F64 : Type := ℤ × ℤ

/-- The rational value denoted by an `F64` pair. -/
def f64Val (x : F64) : ℚ :=
  if 0 ≤ x.2 then (x.1 : ℚ) * 2 ^ x.2.toNat else (x.1 : ℚ) / 2 ^ (-x.2).toNat

/-- Round the positive ratio `a / b` to 53 significant bits, ties to
even: the result `(m, e)` denotes `m * 2 ^ e` with `2 ^ 52 ≤ m ≤ 2 ^ 53`.
`E'` is the exponent with `2 ^ E' ≤ a / b < 2 ^ (E' + 1)`; `m0` is the
truncated 53-bit mantissa and the remainder decides the rounding. -/
def roundMantissa (a b : ℕ) : ℕ × ℤ :=
  let E : ℤ := (bitLen a : ℤ) - bitLen b
  let E' : ℤ := if b * 2 ^ E.toNat ≤ a * 2 ^ (-E).toNat then E else E - 1
  let num := a * 2 ^ (52 - E').toNat
  let den := b * 2 ^ (E' - 52).toNat
  let m0 := num / den
  let r := num % den
  (if den < 2 * r ∨ (2 * r = den ∧ m0 % 2 = 1) then m0 + 1 else m0, E' - 52)

/-- Round a dyadic value `m * 2 ^ e` to binary64. -/
def flD (m : ℤ) (e : ℤ) : F64 :=
  if m = 0 then (0, 0)
  else (m.sign * ((roundMantissa m.natAbs 1).1 : ℤ), (roundMantissa m.natAbs 1).2 + e)

/-- The binary64 value of a Python integer (exact below `2 ^ 53`). -/
def ofIntF (n : ℤ) : F64 := flD n 0

/-- Rounded binary64 addition. -/
def flAdd (x y : F64) : F64 :=
  flD (x.1 * 2 ^ (x.2 - min x.2 y.2).toNat + y.1 * 2 ^ (y.2 - min x.2 y.2).toNat)
    (min x.2 y.2)

/-- Rounded binary64 multiplication. -/
def flMul (x y : F64) : F64 := flD (x.1 * y.1) (x.2 + y.2)

/-- Rounded binary64 division. -/
def flDiv (x y : F64) : F64 :=
  if x.1 = 0 ∨ y.1 = 0 then (0, 0)
  else (x.1.sign * y.1.sign * ((roundMantissa x.1.natAbs y.1.natAbs).1 : ℤ),
    (roundMantissa x.1.natAbs y.1.natAbs).2 + x.2 - y.2)

/-- Python `int(...)` truncation toward zero of a binary64 value. -/
def intF (x : F64) : ℤ :=
  if 0 ≤ x.2 then x.1 * 2 ^ x.2.toNat else x.1.sign * (x.1.natAbs / 2 ^ (-x.2).toNat)

/-- The double denoted by the literal `3.6` (CPython parses decimal
literals to the nearest double, here `fl(18 / 5) = 8106479329266893 * 2 ^ -51`). -/
def lit36 : F64 := flDiv (ofIntF 18) (ofIntF 5)

/-- `int((latitude + 90) * ((2**35 - 1) / 180))` in binary64 arithmetic:
the constant is an exactly represented integer ratio rounded once by the
division, then the shifted input and the product are each rounded. -/
def lat_valueF (latitude : F64) : ℤ :=
  intF (flMul (flAdd latitude (ofIntF 90)) (flDiv (ofIntF (2 ^ 35 - 1)) (ofIntF 180)))

/-- `int((longitude + 180) * ((2**36 - 1) / 360))` in binary64 arithmetic. -/
def lon_valueF (longitude : F64) : ℤ :=
  intF (flMul (flAdd longitude (ofIntF 180)) (flDiv (ofIntF (2 ^ 36 - 1)) (ofIntF 360)))

/-- `int((altitude + 10000) * ((2**25 - 1) / 20000))` in binary64 arithmetic. -/
def alt_valueF (altitude : F64) : ℤ :=
  intF (flMul (flAdd altitude (ofIntF 10000)) (flDiv (ofIntF (2 ^ 25 - 1)) (ofIntF 20000)))

/-- `int((q + 1) * ((2**16 - 1) / 2))` in binary64 arithmetic. -/
def quat_valueF (q : F64) : ℤ :=
  intF (flMul (flAdd q (ofIntF 1)) (flDiv (ofIntF (2 ^ 16 - 1)) (ofIntF 2)))

/-- `int(scale * ((2**16 - 1) / 3.6))` in binary64 arithmetic. -/
def scale_valueF (scale : F64) : ℤ :=
  intF (flMul scale (flDiv (ofIntF (2 ^ 16 - 1)) lit36))

/-- Rat.floor agrees with the floor of the FloorRing instance on ℚ. -/
theorem ratFloor_eq_floor (q : ℚ) : Rat.floor q = ⌊q⌋ := by
  rw [Rat.floor_def, Rat.floor_def']

/-- On nonnegative rationals, Python truncation is the floor. -/
theorem pyInt_of_nonneg {q : ℚ} (h : 0 ≤ q) : pyInt q = ⌊q⌋ := by
  rw [pyInt, if_neg (not_lt.2 h), ratFloor_eq_floor]

/-- Python truncation of an integer is itself. -/
theorem pyInt_intCast (z : ℤ) : pyInt (z : ℚ) = z := by
  rcases le_or_lt 0 z with h | h
  · rw [pyInt_of_nonneg (by exact_mod_cast h), Int.floor_intCast]
  · rw [pyInt, if_pos (by exact_mod_cast h), ← Int.cast_neg, ratFloor_eq_floor,
      Int.floor_intCast, neg_neg]

/-! ## Placement loop lemmas -/

/-- The bits left over by one column are a drop of the input bits by the
number of non-reserved modules of the column. -/
theorem placeColumn_snd (x : ℕ) :
    ∀ (ys : List ℕ) (g : Grid) (bits : List Bool),
      (placeColumn x g ys bits).2 =
        bits.drop ((ys.filter (fun y => !reservedModule x y)).length) := by
  intro ys
  induction ys with
  | nil => intro g bits; simp [placeColumn]
  | cons y ys ih =>
    intro g bits
    by_cases h : reservedModule x y = true
    · simp [placeColumn, h, ih]
    · cases bits with
      | nil => simp [placeColumn, h]
      | cons b rest => simp [placeColumn, h, ih]

/-- The bits left over by the whole traversal are a drop by the total
number of visited modules. -/
theorem placeAll_snd :
    ∀ (xs : List ℕ) (g : Grid) (bits : List Bool),
      (placeAll g xs bits).2 = bits.drop (traversalCount xs) := by
  intro xs
  induction xs with
  | nil => intro g bits; simp [placeAll, traversalCount]
  | cons x xs ih =>
    intro g bits
    by_cases hx : x = 6
    · subst hx
      simpa [placeAll, traversalCount, List.filter_cons] using ih g bits
    · have hp : (placeColumn x g rowOrder bits).2 = bits.drop (colCount x) :=
        placeColumn_snd x rowOrder g bits
      have hcount : traversalCount (x :: xs) = colCount x + traversalCount xs := by
        simp [traversalCount, List.filter_cons, hx]
      rw [hcount]
      by_cases he : (placeColumn x g rowOrder bits).2.isEmpty = true
      · rw [placeAll, if_neg hx, if_pos he, hp]
        rw [List.isEmpty_iff, hp] at he
        have hle : bits.length ≤ colCount x := List.drop_eq_nil_iff.mp he
        rw [he, List.drop_eq_nil_of_le (by omega)]
      · rw [placeAll, if_neg hx, if_neg he, ih, hp, List.drop_drop]

/-- One column writes only non-reserved modules inside its own column. -/
theorem placeColumn_fst (x : ℕ) :
    ∀ (ys : List ℕ) (g : Grid) (bits : List Bool) (r c : ℕ),
      (c ≠ x ∨ reservedModule x r = true) →
      (placeColumn x g ys bits).1 r c = g r c := by
  intro ys
  induction ys with
  | nil => intro g bits r c _; simp [placeColumn]
  | cons y ys ih =>
    intro g bits r c h
    by_cases hres : reservedModule x y = true
    · simpa [placeColumn, hres] using ih g bits r c h
    · cases bits with
      | nil => simp [placeColumn, hres]
      | cons b rest =>
        rw [placeColumn, if_neg hres]
        rw [ih (setG g y x (if b then 1 else 0)) rest r c h, setG]
        have : ¬(r = y ∧ c = x) := by
          rintro ⟨rfl, rfl⟩
          rcases h with h | h
          · exact h rfl
          · exact hres h
        simp [this]

/-- The traversal writes only non-reserved modules outside column 6 and
inside the visited columns. -/
theorem placeAll_fst :
    ∀ (xs : List ℕ) (g : Grid) (bits : List Bool) (r c : ℕ),
      (c = 6 ∨ c ∉ xs ∨ reservedModule c r = true) →
      (placeAll g xs bits).1 r c = g r c := by
  intro xs
  induction xs with
  | nil => intro g bits r c _; simp [placeAll]
  | cons x xs ih =>
    intro g bits r c h
    have htail : c = 6 ∨ c ∉ xs ∨ reservedModule c r = true := by
      rcases h with h | h | h
      · exact Or.inl h
      · exact Or.inr (Or.inl (fun hc => h (List.mem_cons_of_mem x hc)))
      · exact Or.inr (Or.inr h)
    by_cases hx : x = 6
    · rw [placeAll, if_pos hx]
      exact ih g bits r c htail
    · have hcol : c ≠ x ∨ reservedModule x r = true := by
        rcases h with h | h | h
        · exact Or.inl (fun hc => hx (hc ▸ h))
        · exact Or.inl (fun hc => h (hc ▸ List.mem_cons_self x xs))
        · by_cases hcx : c = x
          · exact Or.inr (hcx ▸ h)
          · exact Or.inl hcx
      rw [placeAll, if_neg hx]
      by_cases he : (placeColumn x g rowOrder bits).2.isEmpty = true
      · rw [if_pos he]
        exact placeColumn_fst x rowOrder g bits r c hcol
      · rw [if_neg he, ih _ _ r c htail]
        exact placeColumn_fst x rowOrder g bits r c hcol

/-- Layout values of grid column 6: all ones. -/
theorem layoutGrid_col6 : ∀ y : Fin 21, layoutGrid y.val 6 = 1 := by decide

/-- Layout values of the timing row and column at indices 5..15. -/
theorem layoutGrid_timing :
    ∀ i : Fin 11,
      layoutGrid 5 (i.val + 5) = timingVal (i.val + 5) ∧
      layoutGrid (i.val + 5) 5 = timingVal (i.val + 5) := by decide

/-- C5: the payload traversal (columns x = 20 down to 0 skipping x = 6,
rows y = 20 down to 0 inside each column, non-reserved modules only)
visits exactly 280 modules, and a 280-bit main codeword is always placed
completely: no bits remain after the traversal, so the overflow
condition (bits left over when the modules run out) is unreachable. -/
theorem C5_traversal_places_all_bits :
    payloadTraversal.length = 280 ∧
    ∀ bits : List Bool, bits.length = 280 →
      (placeAll layoutGrid colOrder bits).2 = [] := by
  refine ⟨by decide, ?_⟩
  intro bits h
  rw [placeAll_snd]
  have ht : traversalCount colOrder = 280 := by decide
  rw [ht]
  exact List.drop_eq_nil_of_le (le_of_eq h)

/-- Witness for C5 at a concrete 280-bit codeword. -/
theorem C5_witness :
    payloadTraversal.length = 280 ∧
    (placeAll layoutGrid colOrder (List.replicate 280 false)).2 = [] :=
  ⟨C5_traversal_places_all_bits.1,
   C5_traversal_places_all_bits.2 (List.replicate 280 false) (by simp)⟩

/-- C10: every module of grid column x = 6 holds value 1 after layout and
payload placement (the traversal skips column 6, the grid is initialized
to ones, and the timing write at (6,5) stores 1), so the whole column
renders uniformly in the color of value-1 modules. -/
theorem C10_column6_all_ones :
    ∀ (bits : List Bool) (y : ℕ), y < 21 →
      placedGrid bits y 6 = 1 ∧
      moduleColor (placedGrid bits) y 6 = Color.black := by
  intro bits y hy
  have hpres : placedGrid bits y 6 = layoutGrid y 6 :=
    placeAll_fst colOrder layoutGrid bits y 6 (Or.inl rfl)
  have hval : layoutGrid y 6 = 1 := layoutGrid_col6 ⟨y, hy⟩
  refine ⟨hpres.trans hval, ?_⟩
  rw [moduleColor, hpres, hval]
  simp

/-- Witness for C10 at a concrete bit string and row. -/
theorem C10_witness :
    placedGrid (List.replicate 280 true) 0 6 = 1 ∧
    moduleColor (placedGrid (List.replicate 280 true)) 0 6 = Color.black :=
  C10_column6_all_ones (List.replicate 280 true) 0 (by norm_num)

/-- C4 counterexample: in the placed grid the timing module at index 5 —
grid cell (5,5) — holds value 0, not the claimed 1 (the source rule is
`1 if i % 2 == 0 else 0`, and 5 is odd). -/
theorem C4_counterexample :
    placedGrid (List.replicate 280 true) 5 5 = 0 ∧ (0 : ℕ) ≠ 1 := by
  constructor
  · have hpres : placedGrid (List.replicate 280 true) 5 5 = layoutGrid 5 5 := by
      apply placeAll_fst
      right; right
      simp [reservedModule]
    rw [hpres]
    decide
  · decide

/-- C4 (amended): the timing modules on row 5 and column 5 at indices
i = 5..15 alternate 0,1,0,1,... starting with value 0 at index 5 — the
module value is 1 exactly at even indices — in the grid after payload
placement, for every bit string. -/
theorem C4_timing_rule :
    ∀ (bits : List Bool) (i : ℕ), 5 ≤ i → i ≤ 15 →
      placedGrid bits 5 i = (if i % 2 = 0 then 1 else 0) ∧
      placedGrid bits i 5 = (if i % 2 = 0 then 1 else 0) := by
  intro bits i h5 h15
  have hrow : placedGrid bits 5 i = layoutGrid 5 i := by
    apply placeAll_fst
    right; right
    simp [reservedModule]
  have hcol : placedGrid bits i 5 = layoutGrid i 5 := by
    apply placeAll_fst
    right; right
    simp [reservedModule]
  have h := layoutGrid_timing ⟨i - 5, by omega⟩
  have heq : i - 5 + 5 = i := by omega
  rw [heq] at h
  rw [timingVal] at h
  exact ⟨hrow.trans h.1, hcol.trans h.2⟩

/-- Witness for C4 (amended) at index 6 of a concrete grid. -/
theorem C4_witness :
    placedGrid (List.replicate 280 true) 5 6 = (if 6 % 2 = 0 then 1 else 0) ∧
    placedGrid (List.replicate 280 true) 6 5 = (if 6 % 2 = 0 then 1 else 0) :=
  C4_timing_rule (List.replicate 280 true) 6 (by norm_num) (by norm_num)

/-! ## Bit and byte conversion lemmas -/

/-- Fixed-width digit lists have the stated length. -/
theorem natToBits_length (n : ℕ) : ∀ v, (natToBits n v).length = n := by
  induction n with
  | zero => intro v; rfl
  | succ n ih => intro v; simp [natToBits, ih]

/-- Digits of zero are all zero bits. -/
theorem natToBits_zero (n : ℕ) : natToBits n 0 = List.replicate n false := by
  induction n with
  | zero => rfl
  | succ n ih => simp [natToBits, ih, List.replicate_succ']

/-- Splitting a fixed-width digit list into high and low parts. -/
theorem natToBits_split (m : ℕ) :
    ∀ (k v : ℕ), natToBits (m + k) v = natToBits m (v / 2 ^ k) ++ natToBits k (v % 2 ^ k) := by
  intro k
  induction k generalizing m with
  | zero =>
    intro v
    simp [natToBits]
  | succ k ih =>
    intro v
    have h1 : m + (k + 1) = (m + k) + 1 := by omega
    rw [h1, natToBits, ih m (v / 2)]
    have e1 : v / 2 / 2 ^ k = v / 2 ^ (k + 1) := by
      rw [Nat.div_div_eq_div_mul, pow_succ, Nat.mul_comm]
    have e2 : v / 2 % 2 ^ k = v % 2 ^ (k + 1) / 2 := by
      rw [pow_succ, Nat.mul_comm]
      exact (Nat.mod_mul_right_div_self v 2 (2 ^ k)).symm
    have e3 : (v % 2 ^ (k + 1)) % 2 = v % 2 := by
      exact Nat.mod_mod_of_dvd v (dvd_pow_self 2 (Nat.succ_ne_zero k))
    rw [e1, e2]
    rw [show natToBits (k + 1) (v % 2 ^ (k + 1)) =
        natToBits k (v % 2 ^ (k + 1) / 2) ++ [(v % 2 ^ (k + 1)) % 2 == 1] from rfl]
    rw [e3, List.append_assoc]

/-- Padding a small value to a wider width prepends zero bits. -/
theorem natToBits_pad (k m v : ℕ) (h : v < 2 ^ m) :
    natToBits (k + m) v = List.replicate k false ++ natToBits m v := by
  rw [natToBits_split k m v, Nat.div_eq_of_lt h, Nat.mod_eq_of_lt h, natToBits_zero]

/-- Appending one digit doubles the value and adds the digit. -/
theorem bitsToNat_snoc (l : List Bool) (b : Bool) :
    bitsToNat (l ++ [b]) = 2 * bitsToNat l + (if b then 1 else 0) := by
  rw [bitsToNat, bitsToNat, List.foldl_append]
  rfl

/-- A digit list of length n has value below 2 ^ n. -/
theorem bitsToNat_lt (l : List Bool) : bitsToNat l < 2 ^ l.length := by
  induction l using List.reverseRecOn with
  | nil => decide
  | append_singleton l b ih =>
    rw [bitsToNat_snoc]
    simp only [List.length_append, List.length_singleton]
    have hp : 2 ^ (l.length + 1) = 2 ^ l.length * 2 := pow_succ 2 l.length
    cases b <;> simp <;> omega

/-- Round trip: the digits of the value of a digit list are the list. -/
theorem natToBits_bitsToNat (l : List Bool) : natToBits l.length (bitsToNat l) = l := by
  induction l using List.reverseRecOn with
  | nil => rfl
  | append_singleton l b ih =>
    rw [bitsToNat_snoc, List.length_append, List.length_singleton, natToBits]
    have h1 : (2 * bitsToNat l + (if b then 1 else 0)) / 2 = bitsToNat l := by
      cases b <;> (simp; try omega)
    have h2 : ((2 * bitsToNat l + (if b then 1 else 0)) % 2 == 1) = b := by
      cases b
      · have : (2 * bitsToNat l + 0) % 2 = 0 := by omega
        simp [this]
      · have : (2 * bitsToNat l + 1) % 2 = 1 := by omega
        simp [this]
    rw [h1, h2, ih]

/-- The value of a fixed-width digit list is the value modulo the width. -/
theorem bitsToNat_natToBits (n : ℕ) : ∀ v, bitsToNat (natToBits n v) = v % 2 ^ n := by
  induction n with
  | zero => intro v; simp [natToBits, bitsToNat, Nat.mod_one]
  | succ n ih =>
    intro v
    rw [natToBits, bitsToNat_snoc, ih (v / 2)]
    have h : v % 2 ^ (n + 1) = v % 2 + 2 * (v / 2 % 2 ^ n) := by
      rw [pow_succ, Nat.mul_comm]
      exact Nat.mod_mul
    have h2 : v % 2 = 0 ∨ v % 2 = 1 := by omega
    rcases h2 with h2 | h2 <;> (simp [h2] at h ⊢; omega)

/-- Value of a fully-captured digit list. -/
theorem bitsToNat_natToBits_of_lt {n v : ℕ} (h : v < 2 ^ n) :
    bitsToNat (natToBits n v) = v := by
  rw [bitsToNat_natToBits, Nat.mod_eq_of_lt h]

/-- Value of a concatenation of digit lists. -/
theorem bitsToNat_append (a b : List Bool) :
    bitsToNat (a ++ b) = bitsToNat a * 2 ^ b.length + bitsToNat b := by
  induction b using List.reverseRecOn with
  | nil => simp [bitsToNat]
  | append_singleton b x ih =>
    rw [← List.append_assoc, bitsToNat_snoc, ih, bitsToNat_snoc]
    simp only [List.length_append, List.length_singleton]
    rw [pow_succ]
    ring

/-- The minimal digit list of a value below 2 ^ n is at most n digits. -/
theorem natBitsFuel_length_le : ∀ (f v n : ℕ), v < 2 ^ n → (natBitsFuel f v).length ≤ n := by
  intro f
  induction f with
  | zero => intro v n _; simp [natBitsFuel]
  | succ f ih =>
    intro v n h
    by_cases hv : v = 0
    · simp [natBitsFuel, hv]
    · rw [natBitsFuel, if_neg hv]
      have hn : n ≠ 0 := by
        rintro rfl
        norm_num at h
        omega
      obtain ⟨n', rfl⟩ : ∃ n', n = n' + 1 := ⟨n - 1, by omega⟩
      have hdiv : v / 2 < 2 ^ n' := by
        rw [Nat.div_lt_iff_lt_mul (by norm_num)]
        calc v < 2 ^ (n' + 1) := h
          _ = 2 ^ n' * 2 := pow_succ 2 n'
      simp only [List.length_append, List.length_singleton]
      have := ih (v / 2) n' hdiv
      omega

/-- Bit length is at most n for values below 2 ^ n. -/
theorem bitLen_le {v n : ℕ} (h : v < 2 ^ n) : bitLen v ≤ n :=
  natBitsFuel_length_le v v n h

/-- With enough fuel the value is below 2 to the number of its digits. -/
theorem lt_two_pow_natBitsFuel : ∀ (f v : ℕ), v ≤ f → v < 2 ^ (natBitsFuel f v).length := by
  intro f
  induction f with
  | zero =>
    intro v h
    have hv : v = 0 := by omega
    subst hv
    simp [natBitsFuel]
  | succ f ih =>
    intro v h
    by_cases hv : v = 0
    · subst hv; simp [natBitsFuel]
    · rw [natBitsFuel, if_neg hv]
      simp only [List.length_append, List.length_singleton]
      have h2 : v / 2 ≤ f := by omega
      have h3 := ih (v / 2) h2
      have hp : 2 ^ ((natBitsFuel f (v / 2)).length + 1) =
          2 ^ (natBitsFuel f (v / 2)).length * 2 := pow_succ 2 _
      omega

/-- Every value is below 2 to its bit length. -/
theorem lt_two_pow_bitLen (v : ℕ) : v < 2 ^ bitLen v :=
  lt_two_pow_natBitsFuel v v le_rfl

/-- Values of at least 2 ^ k have more than k binary digits. -/
theorem bitLen_gt {v k : ℕ} (h : 2 ^ k ≤ v) : k < bitLen v := by
  have h1 := lt_two_pow_bitLen v
  have h2 : 2 ^ k < 2 ^ bitLen v := lt_of_le_of_lt h h1
  exact (Nat.pow_lt_pow_iff_right (by norm_num)).1 h2

/-- In-range values take exactly the requested width. -/
theorem pyBinDigits_of_lt {v n : ℕ} (h : v < 2 ^ n) : pyBinDigits v n = natToBits n v := by
  rw [pyBinDigits, Nat.max_eq_left (bitLen_le h)]

/-- Formatting an in-range nonnegative value yields exactly n digit
characters. -/
theorem pyFormat_digits {v : ℤ} {n : ℕ} (h0 : 0 ≤ v) (h1 : v < 2 ^ n) :
    pyFormat v n = (natToBits n v.toNat).map BChar.bit := by
  have h2 : v.toNat < 2 ^ n := by
    have h3 : ((v.toNat : ℤ)) = v := Int.toNat_of_nonneg h0
    have h4 : ((v.toNat : ℤ)) < ((2 ^ n : ℕ) : ℤ) := by
      rw [h3]
      exact_mod_cast h1
    exact_mod_cast h4
  rw [pyFormat, if_neg (not_lt.2 h0), pyBinDigits_of_lt h2]

/-- Digit characters pass the digit test. -/
theorem all_isDigitChar_map (l : List Bool) : (l.map BChar.bit).all isDigitChar = true := by
  induction l with
  | nil => rfl
  | cons b l ih => simp [isDigitChar] at ih ⊢; exact ih

/-- Extracting digits from a pure digit string recovers the bits. -/
theorem bcharDigits_map (l : List Bool) : bcharDigits (l.map BChar.bit) = l := by
  induction l with
  | nil => rfl
  | cons b l ih =>
    simp only [List.map_cons, bcharDigits, List.filterMap_cons] at ih ⊢
    rw [ih]

/-- Digits distribute over concatenation. -/
theorem bcharDigits_append (a b : List BChar) :
    bcharDigits (a ++ b) = bcharDigits a ++ bcharDigits b := by
  simp [bcharDigits, List.filterMap_append]

/-- Parsing a nonempty pure digit string yields its value. -/
theorem pyIntBase2_digits (l : List Bool) (h : l ≠ []) :
    pyIntBase2 (l.map BChar.bit) = .ok ((bitsToNat l : ℤ)) := by
  cases l with
  | nil => exact absurd rfl h
  | cons b bs =>
    have h1 := all_isDigitChar_map (b :: bs)
    have h2 := bcharDigits_map (b :: bs)
    simp only [List.map_cons] at h1 h2
    simp [pyIntBase2, h1, h2]

/-- Byte strings have the stated length. -/
theorem natToBytes_length (n : ℕ) : ∀ v, (natToBytes n v).length = n := by
  induction n with
  | zero => intro v; rfl
  | succ n ih => intro v; simp [natToBytes, ih]

/-- Bits of a big-endian byte string are the fixed-width digits of its
value. -/
theorem bytesToBits_natToBytes (n : ℕ) : ∀ v, bytesToBits (natToBytes n v) = natToBits (8 * n) v := by
  induction n with
  | zero => intro v; rfl
  | succ n ih =>
    intro v
    rw [natToBytes, bytesToBits, List.flatMap_append]
    rw [show (natToBytes n (v / 256)).flatMap byteBits = bytesToBits (natToBytes n (v / 256)) from rfl]
    rw [ih (v / 256)]
    have hb : ([v % 256].flatMap byteBits) = natToBits 8 (v % 256) := by
      simp [byteBits]
    rw [hb]
    have h : 8 * (n + 1) = 8 * n + 8 := by ring
    rw [h, natToBits_split (8 * n) 8 v]
    norm_num

/-- Length of the bit expansion of a byte string. -/
theorem bytesToBits_length (bs : List ℕ) : (bytesToBits bs).length = 8 * bs.length := by
  induction bs with
  | nil => rfl
  | cons b bs ih =>
    simp only [bytesToBits, List.flatMap_cons, List.length_append] at ih ⊢
    rw [ih, byteBits, natToBits_length]
    simp
    ring

/-- Bit expansion distributes over concatenation. -/
theorem bytesToBits_append (a b : List ℕ) :
    bytesToBits (a ++ b) = bytesToBits a ++ bytesToBits b :=
  List.flatMap_append a b byteBits

/-! ## Reed-Solomon length lemmas -/

/-- Multiplying by a binomial adds one coefficient. -/
theorem polyMulBinom_length (p : List ℕ) (r : ℕ) : (polyMulBinom p r).length = p.length + 1 := by
  simp [polyMulBinom, List.length_zipWith]

/-- The generator polynomial for nsym roots has nsym + 1 coefficients. -/
theorem rsGenPoly_length (n : ℕ) : (rsGenPoly n).length = n + 1 := by
  induction n with
  | zero => rfl
  | succ n ih => simp [rsGenPoly, polyMulBinom_length, ih]

/-- One division step preserves the register length. -/
theorem rsStep_length {genTail w : List ℕ} {m : ℕ} (h : w.length = genTail.length) :
    (rsStep genTail w m).length = genTail.length := by
  simp only [rsStep, List.length_zipWith, List.length_append, List.length_tail,
    List.length_singleton]
  omega

/-- The ECC register ends with exactly nsym bytes. -/
theorem rsEcc_length (nsym : ℕ) (msg : List ℕ) : (rsEcc nsym msg).length = nsym := by
  have hg : (rsGenPoly nsym).tail.length = nsym := by
    simp [List.length_tail, rsGenPoly_length]
  rw [rsEcc]
  have key : ∀ (ms : List ℕ) (w : List ℕ), w.length = nsym →
      (ms.foldl (rsStep (rsGenPoly nsym).tail) w).length = nsym := by
    intro ms
    induction ms with
    | nil => intro w hw; exact hw
    | cons m ms ih =>
      intro w hw
      apply ih
      rw [rsStep_length (by rw [hw, hg]), hg]
  exact key msg (List.replicate nsym 0) (List.length_replicate nsym 0)

/-- Length of a systematic codeword. -/
theorem rsEncode_length (nsym : ℕ) (msg : List ℕ) :
    (rsEncode nsym msg).length = msg.length + nsym := by
  simp [rsEncode, rsEcc_length]

/-! ## Quantizer lemmas -/

/-- Truncation of a nonnegative value bounded by an integer stays in
range. -/
theorem pyInt_bounds {q : ℚ} {M : ℤ} (h0 : 0 ≤ q) (h1 : q ≤ (M : ℚ)) :
    0 ≤ pyInt q ∧ pyInt q ≤ M := by
  rw [pyInt_of_nonneg h0]
  constructor
  · exact Int.le_floor.2 (by exact_mod_cast h0)
  · calc ⌊q⌋ ≤ ⌊(M : ℚ)⌋ := Int.floor_le_floor h1
      _ = M := Int.floor_intCast M

/-- Truncation of a nonnegative value is nonnegative. -/
theorem pyInt_nonneg {q : ℚ} (h0 : 0 ≤ q) : 0 ≤ pyInt q := by
  rw [pyInt_of_nonneg h0]
  exact Int.le_floor.2 (by exact_mod_cast h0)

/-- Latitude bounds under the declared range. -/
theorem lat_value_bounds {lat : ℚ} (h1 : -90 ≤ lat) (h2 : lat ≤ 90) :
    0 ≤ lat_value lat ∧ lat_value lat < 2 ^ 35 := by
  have h0 : (0 : ℚ) ≤ (lat + 90) * ((2 ^ 35 - 1) / 180) :=
    mul_nonneg (by linarith) (by norm_num)
  have hM : (lat + 90) * ((2 ^ 35 - 1) / 180) ≤ ((2 ^ 35 - 1 : ℤ) : ℚ) := by
    calc (lat + 90) * ((2 ^ 35 - 1) / 180) ≤ 180 * ((2 ^ 35 - 1) / 180) := by
          apply mul_le_mul_of_nonneg_right (by linarith) (by norm_num)
      _ = ((2 ^ 35 - 1 : ℤ) : ℚ) := by norm_num
  have h := pyInt_bounds h0 hM
  rw [lat_value]
  exact ⟨h.1, by omega⟩

/-- Longitude bounds under the declared range. -/
theorem lon_value_bounds {lon : ℚ} (h1 : -180 ≤ lon) (h2 : lon ≤ 180) :
    0 ≤ lon_value lon ∧ lon_value lon < 2 ^ 36 := by
  have h0 : (0 : ℚ) ≤ (lon + 180) * ((2 ^ 36 - 1) / 360) :=
    mul_nonneg (by linarith) (by norm_num)
  have hM : (lon + 180) * ((2 ^ 36 - 1) / 360) ≤ ((2 ^ 36 - 1 : ℤ) : ℚ) := by
    calc (lon + 180) * ((2 ^ 36 - 1) / 360) ≤ 360 * ((2 ^ 36 - 1) / 360) := by
          apply mul_le_mul_of_nonneg_right (by linarith) (by norm_num)
      _ = ((2 ^ 36 - 1 : ℤ) : ℚ) := by norm_num
  have h := pyInt_bounds h0 hM
  rw [lon_value]
  exact ⟨h.1, by omega⟩

/-- Altitude bounds under the declared range. -/
theorem alt_value_bounds {alt : ℚ} (h1 : -10000 ≤ alt) (h2 : alt ≤ 10000) :
    0 ≤ alt_value alt ∧ alt_value alt < 2 ^ 25 := by
  have h0 : (0 : ℚ) ≤ (alt + 10000) * ((2 ^ 25 - 1) / 20000) :=
    mul_nonneg (by linarith) (by norm_num)
  have hM : (alt + 10000) * ((2 ^ 25 - 1) / 20000) ≤ ((2 ^ 25 - 1 : ℤ) : ℚ) := by
    calc (alt + 10000) * ((2 ^ 25 - 1) / 20000) ≤ 20000 * ((2 ^ 25 - 1) / 20000) := by
          apply mul_le_mul_of_nonneg_right (by linarith) (by norm_num)
      _ = ((2 ^ 25 - 1 : ℤ) : ℚ) := by norm_num
  have h := pyInt_bounds h0 hM
  rw [alt_value]
  exact ⟨h.1, by omega⟩

/-- Quaternion component bounds under the declared range. -/
theorem quat_value_bounds {q : ℚ} (h1 : -1 ≤ q) (h2 : q ≤ 1) :
    0 ≤ quat_value q ∧ quat_value q < 2 ^ 16 := by
  have h0 : (0 : ℚ) ≤ (q + 1) * ((2 ^ 16 - 1) / 2) :=
    mul_nonneg (by linarith) (by norm_num)
  have hM : (q + 1) * ((2 ^ 16 - 1) / 2) ≤ ((2 ^ 16 - 1 : ℤ) : ℚ) := by
    calc (q + 1) * ((2 ^ 16 - 1) / 2) ≤ 2 * ((2 ^ 16 - 1) / 2) := by
          apply mul_le_mul_of_nonneg_right (by linarith) (by norm_num)
      _ = ((2 ^ 16 - 1 : ℤ) : ℚ) := by norm_num
  have h := pyInt_bounds h0 hM
  rw [quat_value]
  exact ⟨h.1, by omega⟩

/-- Scale bounds under the declared range. -/
theorem scale_value_bounds {s : ℚ} (h1 : 0 ≤ s) (h2 : s ≤ 18 / 5) :
    0 ≤ scale_value s ∧ scale_value s < 2 ^ 16 := by
  have h0 : (0 : ℚ) ≤ s * ((2 ^ 16 - 1) / (18 / 5)) := mul_nonneg h1 (by norm_num)
  have hM : s * ((2 ^ 16 - 1) / (18 / 5)) ≤ ((2 ^ 16 - 1 : ℤ) : ℚ) := by
    calc s * ((2 ^ 16 - 1) / (18 / 5)) ≤ (18 / 5) * ((2 ^ 16 - 1) / (18 / 5)) := by
          apply mul_le_mul_of_nonneg_right h2 (by norm_num)
      _ = ((2 ^ 16 - 1 : ℤ) : ℚ) := by norm_num
  have h := pyInt_bounds h0 hM
  rw [scale_value]
  exact ⟨h.1, by omega⟩

/-- Latitude endpoint values. -/
theorem lat_value_max : lat_value 90 = 2 ^ 35 - 1 := by
  have h : ((90 : ℚ) + 90) * ((2 ^ 35 - 1) / 180) = ((2 ^ 35 - 1 : ℤ) : ℚ) := by norm_num
  rw [lat_value, h, pyInt_intCast]

theorem lat_value_min : lat_value (-90) = 0 := by
  have h : ((-90 : ℚ) + 90) * ((2 ^ 35 - 1) / 180) = ((0 : ℤ) : ℚ) := by norm_num
  rw [lat_value, h, pyInt_intCast]

/-- Longitude endpoint values. -/
theorem lon_value_max : lon_value 180 = 2 ^ 36 - 1 := by
  have h : ((180 : ℚ) + 180) * ((2 ^ 36 - 1) / 360) = ((2 ^ 36 - 1 : ℤ) : ℚ) := by norm_num
  rw [lon_value, h, pyInt_intCast]

theorem lon_value_min : lon_value (-180) = 0 := by
  have h : ((-180 : ℚ) + 180) * ((2 ^ 36 - 1) / 360) = ((0 : ℤ) : ℚ) := by norm_num
  rw [lon_value, h, pyInt_intCast]

/-- Altitude endpoint values. -/
theorem alt_value_max : alt_value 10000 = 2 ^ 25 - 1 := by
  have h : ((10000 : ℚ) + 10000) * ((2 ^ 25 - 1) / 20000) = ((2 ^ 25 - 1 : ℤ) : ℚ) := by
    norm_num
  rw [alt_value, h, pyInt_intCast]

theorem alt_value_min : alt_value (-10000) = 0 := by
  have h : ((-10000 : ℚ) + 10000) * ((2 ^ 25 - 1) / 20000) = ((0 : ℤ) : ℚ) := by norm_num
  rw [alt_value, h, pyInt_intCast]

/-- Quaternion component endpoint values. -/
theorem quat_value_max : quat_value 1 = 2 ^ 16 - 1 := by
  have h : ((1 : ℚ) + 1) * ((2 ^ 16 - 1) / 2) = ((2 ^ 16 - 1 : ℤ) : ℚ) := by norm_num
  rw [quat_value, h, pyInt_intCast]

theorem quat_value_min : quat_value (-1) = 0 := by
  have h : ((-1 : ℚ) + 1) * ((2 ^ 16 - 1) / 2) = ((0 : ℤ) : ℚ) := by norm_num
  rw [quat_value, h, pyInt_intCast]

/-- Scale endpoint values. -/
theorem scale_value_max : scale_value (18 / 5) = 2 ^ 16 - 1 := by
  have h : ((18 : ℚ) / 5) * ((2 ^ 16 - 1) / (18 / 5)) = ((2 ^ 16 - 1 : ℤ) : ℚ) := by norm_num
  rw [scale_value, h, pyInt_intCast]

theorem scale_value_min : scale_value 0 = 0 := by
  have h : ((0 : ℚ)) * ((2 ^ 16 - 1) / (18 / 5)) = ((0 : ℤ) : ℚ) := by norm_num
  rw [scale_value, h, pyInt_intCast]

/-- Quantization of a quaternion literal list at the endpoints. -/
theorem quat_map_min : ([(-1 : ℚ), -1, -1, -1].map quat_value) = [0, 0, 0, 0] := by
  simp [quat_value_min]

theorem quat_map_max :
    ([(1 : ℚ), 1, 1, 1].map quat_value) = [2 ^ 16 - 1, 2 ^ 16 - 1, 2 ^ 16 - 1, 2 ^ 16 - 1] := by
  simp [quat_value_max]

/-! ## Pipeline lemmas -/

/-- Bind of a successful Except computation. -/
theorem exceptBind_ok {α β : Type} (a : α) (f : α → Except PyErr β) :
    Except.bind (Except.ok a : Except PyErr α) f = f a := rfl

/-- Bind of a failed Except computation. -/
theorem exceptBind_err {α β : Type} (e : PyErr) (f : α → Except PyErr β) :
    Except.bind (Except.error e : Except PyErr α) f = Except.error e := rfl

/-- The main bit string of in-range quantized values is a digit string. -/
theorem main_bits_eq (latV lonV altV q1 q2 q3 q4 acc scaleV : ℤ)
    (hlat1 : 0 ≤ latV) (hlat2 : latV < 2 ^ 35)
    (hlon1 : 0 ≤ lonV) (hlon2 : lonV < 2 ^ 36)
    (halt1 : 0 ≤ altV) (halt2 : altV < 2 ^ 25)
    (hq11 : 0 ≤ q1) (hq12 : q1 < 2 ^ 16)
    (hq21 : 0 ≤ q2) (hq22 : q2 < 2 ^ 16)
    (hq31 : 0 ≤ q3) (hq32 : q3 < 2 ^ 16)
    (hq41 : 0 ≤ q4) (hq42 : q4 < 2 ^ 16)
    (hacc1 : 0 ≤ acc) (hacc2 : acc < 2 ^ 2)
    (hsc1 : 0 ≤ scaleV) (hsc2 : scaleV < 2 ^ 16) :
    pyFormat latV 35 ++ pyFormat lonV 36 ++ pyFormat altV 25 ++
      ([q1, q2, q3, q4].flatMap fun qv => pyFormat qv 16) ++ pyFormat acc 2 ++
      pyFormat scaleV 16 =
      (mainDigits latV lonV altV q1 q2 q3 q4 acc scaleV).map BChar.bit := by
  rw [pyFormat_digits hlat1 hlat2, pyFormat_digits hlon1 hlon2, pyFormat_digits halt1 halt2,
    pyFormat_digits hacc1 hacc2, pyFormat_digits hsc1 hsc2]
  simp only [List.flatMap_cons, List.flatMap_nil,
    pyFormat_digits hq11 hq12, pyFormat_digits hq21 hq22, pyFormat_digits hq31 hq32,
    pyFormat_digits hq41 hq42]
  simp [mainDigits, List.map_append]

/-- Length of the main digit list. -/
theorem mainDigits_length (latV lonV altV q1 q2 q3 q4 acc scaleV : ℤ) :
    (mainDigits latV lonV altV q1 q2 q3 q4 acc scaleV).length = 178 := by
  simp [mainDigits, natToBits_length]

/-- Parsing and byte conversion of the main payload succeed for in-range
quantized values. -/
theorem mainBytes_ok (latV lonV altV q1 q2 q3 q4 acc scaleV : ℤ) :
    pyToBytes ((bitsToNat (mainDigits latV lonV altV q1 q2 q3 q4 acc scaleV) : ℤ)) 23 =
      .ok (mainBytes23 latV lonV altV q1 q2 q3 q4 acc scaleV) := by
  set L := mainDigits latV lonV altV q1 q2 q3 q4 acc scaleV with hL
  have hlt : bitsToNat L < 2 ^ 178 := by
    have h := bitsToNat_lt L
    rwa [mainDigits_length] at h
  rw [pyToBytes, if_neg (by exact_mod_cast Int.not_lt.2 (Int.ofNat_nonneg _)), if_pos]
  · rw [mainBytes23, Int.toNat_natCast]
  · have : bitsToNat L < 2 ^ (8 * 23) := lt_trans hlt (by norm_num)
    exact_mod_cast this

/-- The reserved bit string of in-range identifiers is a digit string. -/
theorem id_bits_eq (tag ver : ℤ)
    (htag1 : 0 ≤ tag) (htag2 : tag < 2 ^ 12)
    (hver1 : 0 ≤ ver) (hver2 : ver < 2 ^ 4) :
    pyFormat tag 12 ++ pyFormat ver 4 = (idDigits tag ver).map BChar.bit := by
  rw [pyFormat_digits htag1 htag2, pyFormat_digits hver1 hver2]
  simp [idDigits, List.map_append]

/-- Byte conversion of the reserved payload succeeds for in-range
identifiers. -/
theorem idBytes_ok (tag ver : ℤ) :
    pyToBytes ((bitsToNat (idDigits tag ver) : ℤ)) 2 =
      .ok (natToBytes 2 (bitsToNat (idDigits tag ver))) := by
  have hlt : bitsToNat (idDigits tag ver) < 2 ^ 16 := by
    have h := bitsToNat_lt (idDigits tag ver)
    have hlen : (idDigits tag ver).length = 16 := by simp [idDigits, natToBits_length]
    rwa [hlen] at h
  rw [pyToBytes, if_neg (by exact_mod_cast Int.not_lt.2 (Int.ofNat_nonneg _)), if_pos]
  · rw [Int.toNat_natCast]
  · exact_mod_cast hlt

/-- Success of the whole try block on in-range quantized values, with the
closed form of every produced artifact. -/
theorem tryEncodeInts_ok (latV lonV altV q1 q2 q3 q4 acc scaleV tag ver : ℤ)
    (hlat1 : 0 ≤ latV) (hlat2 : latV < 2 ^ 35)
    (hlon1 : 0 ≤ lonV) (hlon2 : lonV < 2 ^ 36)
    (halt1 : 0 ≤ altV) (halt2 : altV < 2 ^ 25)
    (hq11 : 0 ≤ q1) (hq12 : q1 < 2 ^ 16)
    (hq21 : 0 ≤ q2) (hq22 : q2 < 2 ^ 16)
    (hq31 : 0 ≤ q3) (hq32 : q3 < 2 ^ 16)
    (hq41 : 0 ≤ q4) (hq42 : q4 < 2 ^ 16)
    (hacc1 : 0 ≤ acc) (hacc2 : acc < 2 ^ 2)
    (hsc1 : 0 ≤ scaleV) (hsc2 : scaleV < 2 ^ 16)
    (htag1 : 0 ≤ tag) (htag2 : tag < 2 ^ 12)
    (hver1 : 0 ≤ ver) (hver2 : ver < 2 ^ 4) :
    tryEncodeInts latV lonV altV [q1, q2, q3, q4] acc scaleV tag ver =
      .ok { main_data_bits := (mainDigits latV lonV altV q1 q2 q3 q4 acc scaleV).map BChar.bit
            main_encoded_data := mainCodeword latV lonV altV q1 q2 q3 q4 acc scaleV
            encoded_bits := bytesToBits (mainCodeword latV lonV altV q1 q2 q3 q4 acc scaleV)
            id_encoded_data := idCodeword tag ver
            id_encoded_bits := bytesToBits (idCodeword tag ver)
            grid := placedGrid
              (bytesToBits (mainCodeword latV lonV altV q1 q2 q3 q4 acc scaleV)) } := by
  have hA := main_bits_eq latV lonV altV q1 q2 q3 q4 acc scaleV hlat1 hlat2 hlon1 hlon2
    halt1 halt2 hq11 hq12 hq21 hq22 hq31 hq32 hq41 hq42 hacc1 hacc2 hsc1 hsc2
  have hlen : ((mainDigits latV lonV altV q1 q2 q3 q4 acc scaleV).map BChar.bit).length = 178 := by
    rw [List.length_map, mainDigits_length]
  have hparse : pyIntBase2 ((mainDigits latV lonV altV q1 q2 q3 q4 acc scaleV).map BChar.bit) =
      .ok ((bitsToNat (mainDigits latV lonV altV q1 q2 q3 q4 acc scaleV) : ℤ)) := by
    apply pyIntBase2_digits
    intro hemp
    rw [hemp] at hlen
    simp at hlen
  have hB := id_bits_eq tag ver htag1 htag2 hver1 hver2
  have hidlen : ((idDigits tag ver).map BChar.bit).length = 16 := by
    simp [idDigits, natToBits_length]
  have hidparse : pyIntBase2 ((idDigits tag ver).map BChar.bit) =
      .ok ((bitsToNat (idDigits tag ver) : ℤ)) := by
    apply pyIntBase2_digits
    intro hemp
    rw [hemp] at hidlen
    simp at hidlen
  have e23 : (178 + 7) / 8 = 23 := by norm_num
  have e12 : (23 + 1) / 2 = 12 := by norm_num
  rw [tryEncodeInts, hA, hB, hparse, exceptBind_ok, hlen, e23, e12, mainBytes_ok,
    exceptBind_ok]
  rw [hidparse, exceptBind_ok]
  rw [idBytes_ok, exceptBind_ok]
  rw [mainCodeword, mainBytes23, idCodeword]

/-- Formatting a nonnegative value yields the padded digit characters. -/
theorem pyFormat_nonneg {v : ℤ} (n : ℕ) (h0 : 0 ≤ v) :
    pyFormat v n = (pyBinDigits v.toNat n).map BChar.bit := by
  rw [pyFormat, if_neg (not_lt.2 h0)]

/-- Padded digit lists are at least as long as the requested width. -/
theorem pyBinDigits_length_ge (v n : ℕ) : n ≤ (pyBinDigits v n).length := by
  rw [pyBinDigits, natToBits_length]
  exact Nat.le_max_left n (bitLen v)

/-- Value of a padded digit list. -/
theorem bitsToNat_pyBinDigits (v n : ℕ) : bitsToNat (pyBinDigits v n) = v := by
  rw [pyBinDigits]
  apply bitsToNat_natToBits_of_lt
  calc v < 2 ^ bitLen v := lt_two_pow_bitLen v
    _ ≤ 2 ^ max n (bitLen v) :=
      Nat.pow_le_pow_right (by norm_num) (Nat.le_max_right n (bitLen v))

/-- Conversion to the computed number of bytes never overflows: a bit
string always fits in its rounded-up byte count. -/
theorem pyToBytes_fits (L : List Bool) :
    pyToBytes ((bitsToNat L : ℤ)) ((L.length + 7) / 8) =
      .ok (natToBytes ((L.length + 7) / 8) (bitsToNat L)) := by
  rw [pyToBytes, if_neg (by exact_mod_cast Int.not_lt.2 (Int.ofNat_nonneg _)), if_pos]
  · rw [Int.toNat_natCast]
  · have h1 : bitsToNat L < 2 ^ L.length := bitsToNat_lt L
    have h2 : L.length ≤ 8 * ((L.length + 7) / 8) := by omega
    have h3 : (2 : ℕ) ^ L.length ≤ 2 ^ (8 * ((L.length + 7) / 8)) :=
      Nat.pow_le_pow_right (by norm_num) h2
    exact_mod_cast lt_of_lt_of_le h1 h3

/-- The try block with real inputs succeeds on every in-range input and
produces the closed-form artifacts. -/
theorem tryEncode_ok (lat lon alt q1 q2 q3 q4 scale : ℚ) (acc tag ver : ℤ)
    (hlat1 : -90 ≤ lat) (hlat2 : lat ≤ 90)
    (hlon1 : -180 ≤ lon) (hlon2 : lon ≤ 180)
    (halt1 : -10000 ≤ alt) (halt2 : alt ≤ 10000)
    (hq11 : -1 ≤ q1) (hq12 : q1 ≤ 1)
    (hq21 : -1 ≤ q2) (hq22 : q2 ≤ 1)
    (hq31 : -1 ≤ q3) (hq32 : q3 ≤ 1)
    (hq41 : -1 ≤ q4) (hq42 : q4 ≤ 1)
    (hsc1 : 0 ≤ scale) (hsc2 : scale ≤ 18 / 5)
    (hacc1 : 0 ≤ acc) (hacc2 : acc ≤ 3)
    (htag1 : 0 ≤ tag) (htag2 : tag ≤ 4095)
    (hver1 : 0 ≤ ver) (hver2 : ver ≤ 15) :
    tryEncode lat lon alt [q1, q2, q3, q4] scale acc tag ver =
      .ok { main_data_bits := (mainDigits (lat_value lat) (lon_value lon) (alt_value alt)
              (quat_value q1) (quat_value q2) (quat_value q3) (quat_value q4) acc
              (scale_value scale)).map BChar.bit
            main_encoded_data := mainCodeword (lat_value lat) (lon_value lon) (alt_value alt)
              (quat_value q1) (quat_value q2) (quat_value q3) (quat_value q4) acc
              (scale_value scale)
            encoded_bits := bytesToBits (mainCodeword (lat_value lat) (lon_value lon)
              (alt_value alt) (quat_value q1) (quat_value q2) (quat_value q3) (quat_value q4)
              acc (scale_value scale))
            id_encoded_data := idCodeword tag ver
            id_encoded_bits := bytesToBits (idCodeword tag ver)
            grid := placedGrid (bytesToBits (mainCodeword (lat_value lat) (lon_value lon)
              (alt_value alt) (quat_value q1) (quat_value q2) (quat_value q3) (quat_value q4)
              acc (scale_value scale))) } := by
  rw [tryEncode]
  have hmap : [q1, q2, q3, q4].map quat_value =
      [quat_value q1, quat_value q2, quat_value q3, quat_value q4] := by
    simp
  rw [hmap]
  exact tryEncodeInts_ok (lat_value lat) (lon_value lon) (alt_value alt)
    (quat_value q1) (quat_value q2) (quat_value q3) (quat_value q4) acc (scale_value scale)
    tag ver
    (lat_value_bounds hlat1 hlat2).1 (lat_value_bounds hlat1 hlat2).2
    (lon_value_bounds hlon1 hlon2).1 (lon_value_bounds hlon1 hlon2).2
    (alt_value_bounds halt1 halt2).1 (alt_value_bounds halt1 halt2).2
    (quat_value_bounds hq11 hq12).1 (quat_value_bounds hq11 hq12).2
    (quat_value_bounds hq21 hq22).1 (quat_value_bounds hq21 hq22).2
    (quat_value_bounds hq31 hq32).1 (quat_value_bounds hq31 hq32).2
    (quat_value_bounds hq41 hq42).1 (quat_value_bounds hq41 hq42).2
    hacc1 (by omega) (scale_value_bounds hsc1 hsc2).1 (scale_value_bounds hsc1 hsc2).2
    htag1 (by omega) hver1 (by omega)

/-- C8 (amended): each real-valued field is quantized by
int((value - min) * ((2^n - 1) / (max - min))) evaluated in IEEE-754
binary64 arithmetic (every operation rounded to nearest, ties to even).
At the all-maximum input (lat = 90, lon = 180, alt = 10000, q = 1,
scale = 3.6) every quantized field equals 2^n - 1 and at the all-minimum
input every quantized field equals 0; at these endpoints the IEEE
evaluation agrees exactly with the ideal floor formula
floor((value - min) * (2^n - 1) / (max - min)). Away from the endpoints
the two can differ by one count (see the counterexample). -/
theorem C8_quantizer_formula :
    (lat_valueF (ofIntF 90) = 2 ^ 35 - 1 ∧ lat_valueF (ofIntF (-90)) = 0 ∧
      lon_valueF (ofIntF 180) = 2 ^ 36 - 1 ∧ lon_valueF (ofIntF (-180)) = 0 ∧
      alt_valueF (ofIntF 10000) = 2 ^ 25 - 1 ∧ alt_valueF (ofIntF (-10000)) = 0 ∧
      quat_valueF (ofIntF 1) = 2 ^ 16 - 1 ∧ quat_valueF (ofIntF (-1)) = 0 ∧
      scale_valueF lit36 = 2 ^ 16 - 1 ∧ scale_valueF (ofIntF 0) = 0) ∧
    (lat_value 90 = 2 ^ 35 - 1 ∧ lat_value (-90) = 0 ∧
      lon_value 180 = 2 ^ 36 - 1 ∧ lon_value (-180) = 0 ∧
      alt_value 10000 = 2 ^ 25 - 1 ∧ alt_value (-10000) = 0 ∧
      quat_value 1 = 2 ^ 16 - 1 ∧ quat_value (-1) = 0 ∧
      scale_value (18 / 5) = 2 ^ 16 - 1 ∧ scale_value 0 = 0) :=
  ⟨by decide,
   lat_value_max, lat_value_min, lon_value_max, lon_value_min, alt_value_max,
   alt_value_min, quat_value_max, quat_value_min, scale_value_max, scale_value_min⟩

/-- C8 counterexample: at the exactly representable in-range latitude
2362919207707810 / 2^45 (about 67.1578 degrees) the source expression
int((latitude + 90) * ((2**35 - 1) / 180)) evaluated in IEEE-754
binary64 arithmetic yields 29999526343, one more than the ideal floor
formula floor((latitude - (-90)) * ((2^35 - 1) / (90 - (-90)))) =
29999526342: the program does not implement the exact floor
quantization at intermediate values. -/
theorem C8_counterexample :
    ((-90 : ℚ) ≤ 2362919207707810 / 2 ^ 45 ∧ (2362919207707810 / 2 ^ 45 : ℚ) ≤ 90) ∧
    f64Val (2362919207707810, -45) = 2362919207707810 / 2 ^ 45 ∧
    lat_valueF (2362919207707810, -45) = 29999526343 ∧
    ⌊((2362919207707810 / 2 ^ 45 : ℚ) - (-90)) * ((2 ^ 35 - 1) / (90 - (-90)))⌋ =
      29999526342 ∧
    lat_valueF (2362919207707810, -45) ≠
      ⌊((2362919207707810 / 2 ^ 45 : ℚ) - (-90)) * ((2 ^ 35 - 1) / (90 - (-90)))⌋ := by
  have h45 : (45 : ℤ).toNat = 45 := rfl
  have h1 : lat_valueF (2362919207707810, -45) = 29999526343 := by decide
  have h2 : ⌊((2362919207707810 / 2 ^ 45 : ℚ) - (-90)) * ((2 ^ 35 - 1) / (90 - (-90)))⌋ =
      29999526342 := by
    rw [Int.floor_eq_iff]
    constructor <;> norm_num
  refine ⟨⟨by norm_num, by norm_num⟩, by norm_num [f64Val, h45], h1, h2, ?_⟩
  rw [h1, h2]
  decide

/-- C6: for every in-range input the main codeword is 23 data bytes plus
ceil(23 * 0.5) = 12 ECC bytes, 35 bytes = 280 bits in total, and the
reserved codeword is 2 data bytes plus 1 ECC byte, 3 bytes = 24 bits. -/
theorem C6_codeword_sizes (lat lon alt q1 q2 q3 q4 scale : ℚ) (acc tag ver : ℤ)
    (hlat1 : -90 ≤ lat) (hlat2 : lat ≤ 90)
    (hlon1 : -180 ≤ lon) (hlon2 : lon ≤ 180)
    (halt1 : -10000 ≤ alt) (halt2 : alt ≤ 10000)
    (hq11 : -1 ≤ q1) (hq12 : q1 ≤ 1)
    (hq21 : -1 ≤ q2) (hq22 : q2 ≤ 1)
    (hq31 : -1 ≤ q3) (hq32 : q3 ≤ 1)
    (hq41 : -1 ≤ q4) (hq42 : q4 ≤ 1)
    (hsc1 : 0 ≤ scale) (hsc2 : scale ≤ 18 / 5)
    (hacc1 : 0 ≤ acc) (hacc2 : acc ≤ 3)
    (htag1 : 0 ≤ tag) (htag2 : tag ≤ 4095)
    (hver1 : 0 ≤ ver) (hver2 : ver ≤ 15) :
    ∃ d, tryEncode lat lon alt [q1, q2, q3, q4] scale acc tag ver = Except.ok d ∧
      (∃ dataBytes eccBytes : List ℕ,
        d.main_encoded_data = dataBytes ++ eccBytes ∧
        dataBytes.length = 23 ∧ eccBytes.length = 12) ∧
      d.main_encoded_data.length = 35 ∧ d.encoded_bits.length = 280 ∧
      (∃ idBytes idEcc : List ℕ,
        d.id_encoded_data = idBytes ++ idEcc ∧
        idBytes.length = 2 ∧ idEcc.length = 1) ∧
      d.id_encoded_data.length = 3 ∧ d.id_encoded_bits.length = 24 := by
  refine ⟨_, tryEncode_ok lat lon alt q1 q2 q3 q4 scale acc tag ver hlat1 hlat2 hlon1 hlon2
    halt1 halt2 hq11 hq12 hq21 hq22 hq31 hq32 hq41 hq42 hsc1 hsc2 hacc1 hacc2
    htag1 htag2 hver1 hver2, ?_, ?_, ?_, ?_, ?_, ?_⟩
  · exact ⟨mainBytes23 (lat_value lat) (lon_value lon) (alt_value alt) (quat_value q1)
      (quat_value q2) (quat_value q3) (quat_value q4) acc (scale_value scale),
      rsEcc 12 (mainBytes23 (lat_value lat) (lon_value lon) (alt_value alt) (quat_value q1)
        (quat_value q2) (quat_value q3) (quat_value q4) acc (scale_value scale)),
      rfl, by rw [mainBytes23, natToBytes_length], rsEcc_length 12 _⟩
  · rw [mainCodeword, rsEncode_length, mainBytes23, natToBytes_length]
  · rw [bytesToBits_length, mainCodeword, rsEncode_length, mainBytes23, natToBytes_length]
  · exact ⟨natToBytes 2 (bitsToNat (idDigits tag ver)), rsEcc 1 (natToBytes 2 (bitsToNat
      (idDigits tag ver))), rfl, natToBytes_length 2 _, rsEcc_length 1 _⟩
  · rw [idCodeword, rsEncode_length, natToBytes_length]
  · rw [idCodeword, bytesToBits_length, rsEncode_length, natToBytes_length]

/-- Witness for C6 at a concrete in-range input. -/
theorem C6_witness :
    ∃ d, tryEncode 0 0 0 [0, 0, 0, 1] (9 / 25) 0 0 0 = Except.ok d ∧
      (∃ dataBytes eccBytes : List ℕ,
        d.main_encoded_data = dataBytes ++ eccBytes ∧
        dataBytes.length = 23 ∧ eccBytes.length = 12) ∧
      d.main_encoded_data.length = 35 ∧ d.encoded_bits.length = 280 ∧
      (∃ idBytes idEcc : List ℕ,
        d.id_encoded_data = idBytes ++ idEcc ∧
        idBytes.length = 2 ∧ idEcc.length = 1) ∧
      d.id_encoded_data.length = 3 ∧ d.id_encoded_bits.length = 24 :=
  C6_codeword_sizes 0 0 0 0 0 0 1 (9 / 25) 0 0 0 (by norm_num) (by norm_num) (by norm_num)
    (by norm_num) (by norm_num) (by norm_num) (by norm_num) (by norm_num) (by norm_num)
    (by norm_num) (by norm_num) (by norm_num) (by norm_num) (by norm_num) (by norm_num)
    (by norm_num) (by norm_num) (by norm_num) (by norm_num) (by norm_num) (by norm_num)
    (by norm_num)

/-- The main bit string for nonnegative quantized values of any size. -/
theorem main_bits_eq_nonneg (latV lonV altV q1 q2 q3 q4 acc scaleV : ℤ)
    (h1 : 0 ≤ latV) (h2 : 0 ≤ lonV) (h3 : 0 ≤ altV)
    (h4 : 0 ≤ q1) (h5 : 0 ≤ q2) (h6 : 0 ≤ q3) (h7 : 0 ≤ q4)
    (h8 : 0 ≤ acc) (h9 : 0 ≤ scaleV) :
    pyFormat latV 35 ++ pyFormat lonV 36 ++ pyFormat altV 25 ++
      ([q1, q2, q3, q4].flatMap fun qv => pyFormat qv 16) ++ pyFormat acc 2 ++
      pyFormat scaleV 16 =
    (pyBinDigits latV.toNat 35 ++ pyBinDigits lonV.toNat 36 ++ pyBinDigits altV.toNat 25 ++
      (pyBinDigits q1.toNat 16 ++ (pyBinDigits q2.toNat 16 ++ (pyBinDigits q3.toNat 16 ++
        (pyBinDigits q4.toNat 16 ++ [])))) ++ pyBinDigits acc.toNat 2 ++
      pyBinDigits scaleV.toNat 16).map BChar.bit := by
  rw [pyFormat_nonneg 35 h1, pyFormat_nonneg 36 h2, pyFormat_nonneg 25 h3,
    pyFormat_nonneg 2 h8, pyFormat_nonneg 16 h9]
  simp only [List.flatMap_cons, List.flatMap_nil, pyFormat_nonneg 16 h4,
    pyFormat_nonneg 16 h5, pyFormat_nonneg 16 h6, pyFormat_nonneg 16 h7]
  simp [List.map_append]

/-- The try block succeeds whenever all quantized values are nonnegative
and the identifiers are in range: there is no upper-bound validation
anywhere in the pipeline. -/
theorem tryEncodeInts_ok_of_nonneg (latV lonV altV q1 q2 q3 q4 acc scaleV tag ver : ℤ)
    (h1 : 0 ≤ latV) (h2 : 0 ≤ lonV) (h3 : 0 ≤ altV)
    (h4 : 0 ≤ q1) (h5 : 0 ≤ q2) (h6 : 0 ≤ q3) (h7 : 0 ≤ q4)
    (h8 : 0 ≤ acc) (h9 : 0 ≤ scaleV)
    (htag1 : 0 ≤ tag) (htag2 : tag < 2 ^ 12)
    (hver1 : 0 ≤ ver) (hver2 : ver < 2 ^ 4) :
    ∃ d, tryEncodeInts latV lonV altV [q1, q2, q3, q4] acc scaleV tag ver = Except.ok d := by
  have hA := main_bits_eq_nonneg latV lonV altV q1 q2 q3 q4 acc scaleV
    h1 h2 h3 h4 h5 h6 h7 h8 h9
  set L := pyBinDigits latV.toNat 35 ++ pyBinDigits lonV.toNat 36 ++
    pyBinDigits altV.toNat 25 ++ (pyBinDigits q1.toNat 16 ++ (pyBinDigits q2.toNat 16 ++
      (pyBinDigits q3.toNat 16 ++ (pyBinDigits q4.toNat 16 ++ [])))) ++
    pyBinDigits acc.toNat 2 ++ pyBinDigits scaleV.toNat 16 with hLdef
  have hlpos : 0 < L.length := by
    rw [hLdef]
    simp only [List.length_append]
    have := pyBinDigits_length_ge latV.toNat 35
    omega
  have hne : L ≠ [] := by
    intro hemp
    rw [hemp] at hlpos
    simp at hlpos
  have hparse := pyIntBase2_digits L hne
  have hB := id_bits_eq tag ver htag1 htag2 hver1 hver2
  have hidlen : ((idDigits tag ver).map BChar.bit).length = 16 := by
    simp [idDigits, natToBits_length]
  have hidparse : pyIntBase2 ((idDigits tag ver).map BChar.bit) =
      .ok ((bitsToNat (idDigits tag ver) : ℤ)) := by
    apply pyIntBase2_digits
    intro hemp
    rw [hemp] at hidlen
    simp at hidlen
  rw [tryEncodeInts, hA, hB, hparse, exceptBind_ok, List.length_map, pyToBytes_fits,
    exceptBind_ok, hidparse, exceptBind_ok, idBytes_ok, exceptBind_ok]
  exact ⟨_, rfl⟩

/-- C2 (amended): the encoder performs no range validation and no
InvalidField rejection exists. For every input whose real-valued fields
lie at or above their minima and at most 10^6 — a domain reaching far
beyond the documented maxima — and whose tag and version identifiers
lie in 0..4095 and 0..15, the call returns an image (accuracy may be
any nonnegative integer, the reserved path is pure integer
arithmetic). The upper caps are not a validation performed by the
code: they mark the domain on which the rational model is a faithful
abstraction of the source's double arithmetic, where every double in
the quantizers stays finite and nonnegative. Astronomically larger
magnitudes would instead overflow the double product to infinity and
terminate with an uncaught OverflowError from int() — again never with
InvalidField. -/
theorem C2_no_range_validation (lat lon alt q1 q2 q3 q4 scale : ℚ) (acc tag ver : ℤ)
    (hlat : -90 ≤ lat) (hlatU : lat ≤ 10 ^ 6)
    (hlon : -180 ≤ lon) (hlonU : lon ≤ 10 ^ 6)
    (halt : -10000 ≤ alt) (haltU : alt ≤ 10 ^ 6)
    (hq1 : -1 ≤ q1) (hq1U : q1 ≤ 10 ^ 6)
    (hq2 : -1 ≤ q2) (hq2U : q2 ≤ 10 ^ 6)
    (hq3 : -1 ≤ q3) (hq3U : q3 ≤ 10 ^ 6)
    (hq4 : -1 ≤ q4) (hq4U : q4 ≤ 10 ^ 6)
    (hsc : 0 ≤ scale) (hscU : scale ≤ 10 ^ 6) (hacc : 0 ≤ acc)
    (htag1 : 0 ≤ tag) (htag2 : tag ≤ 4095)
    (hver1 : 0 ≤ ver) (hver2 : ver ≤ 15) :
    (create_fiducial_marker lat lon alt [q1, q2, q3, q4] scale acc tag ver).isImage = true := by
  rw [create_fiducial_marker, tryEncode]
  have hmap : [q1, q2, q3, q4].map quat_value =
      [quat_value q1, quat_value q2, quat_value q3, quat_value q4] := by simp
  rw [hmap]
  obtain ⟨d, hd⟩ := tryEncodeInts_ok_of_nonneg (lat_value lat) (lon_value lon)
    (alt_value alt) (quat_value q1) (quat_value q2) (quat_value q3) (quat_value q4)
    acc (scale_value scale) tag ver
    (pyInt_nonneg (mul_nonneg (by linarith) (by norm_num)))
    (pyInt_nonneg (mul_nonneg (by linarith) (by norm_num)))
    (pyInt_nonneg (mul_nonneg (by linarith) (by norm_num)))
    (pyInt_nonneg (mul_nonneg (by linarith) (by norm_num)))
    (pyInt_nonneg (mul_nonneg (by linarith) (by norm_num)))
    (pyInt_nonneg (mul_nonneg (by linarith) (by norm_num)))
    (pyInt_nonneg (mul_nonneg (by linarith) (by norm_num)))
    hacc
    (pyInt_nonneg (mul_nonneg hsc (by norm_num)))
    htag1 (by omega) hver1 (by omega)
  rw [hd]
  rfl

/-- Witness for C2 (amended) at the out-of-range latitude 90.0000001: the
encoder still returns an image. -/
theorem C2_witness :
    (create_fiducial_marker (900000001 / 10000000) (-180) (-10000) [-1, -1, -1, -1]
      0 0 0 0).isImage = true :=
  C2_no_range_validation (900000001 / 10000000) (-180) (-10000) (-1) (-1) (-1) (-1) 0 0 0 0
    (by norm_num) (by norm_num) (by norm_num) (by norm_num) (by norm_num) (by norm_num)
    (by norm_num) (by norm_num) (by norm_num) (by norm_num) (by norm_num) (by norm_num)
    (by norm_num) (by norm_num) (by norm_num) (by norm_num) (by norm_num) (by norm_num)
    (by norm_num) (by norm_num) (by norm_num)

/-- C2 counterexample: latitude 90.0000001 is strictly out of range, yet
the encode call returns an image — it does not fail with InvalidField and
does not return no-image. -/
theorem C2_counterexample :
    (90 : ℚ) < 900000001 / 10000000 ∧
    (create_fiducial_marker (900000001 / 10000000) (-180) (-10000) [-1, -1, -1, -1]
      0 0 0 0).isImage = true := by
  constructor
  · norm_num
  · rw [create_fiducial_marker, tryEncode]
    rw [quat_map_min]
    obtain ⟨d, hd⟩ := tryEncodeInts_ok_of_nonneg (lat_value (900000001 / 10000000))
      (lon_value (-180)) (alt_value (-10000)) 0 0 0 0 0 (scale_value 0) 0 0
      (pyInt_nonneg (mul_nonneg (by norm_num) (by norm_num)))
      (pyInt_nonneg (mul_nonneg (by norm_num) (by norm_num)))
      (pyInt_nonneg (mul_nonneg (by norm_num) (by norm_num)))
      (by norm_num) (by norm_num) (by norm_num) (by norm_num) (by norm_num)
      (pyInt_nonneg (mul_nonneg (by norm_num) (by norm_num)))
      (by norm_num) (by norm_num) (by norm_num) (by norm_num)
    rw [hd]
    rfl

/-- The first 184 bits of the main codeword are six zero bits followed by
the 178 data bits: the byte conversion pads on the left. -/
theorem codeword_take_184 (latV lonV altV q1 q2 q3 q4 acc scaleV : ℤ) :
    (bytesToBits (mainCodeword latV lonV altV q1 q2 q3 q4 acc scaleV)).take 184 =
      List.replicate 6 false ++ mainDigits latV lonV altV q1 q2 q3 q4 acc scaleV := by
  have hv : bitsToNat (mainDigits latV lonV altV q1 q2 q3 q4 acc scaleV) < 2 ^ 178 := by
    have h := bitsToNat_lt (mainDigits latV lonV altV q1 q2 q3 q4 acc scaleV)
    rwa [mainDigits_length] at h
  rw [mainCodeword, rsEncode, bytesToBits_append]
  have hlen1 : (bytesToBits (mainBytes23 latV lonV altV q1 q2 q3 q4 acc scaleV)).length =
      184 := by
    rw [bytesToBits_length, mainBytes23, natToBytes_length]
  rw [show (184 : ℕ) = (bytesToBits (mainBytes23 latV lonV altV q1 q2 q3 q4 acc
    scaleV)).length from hlen1.symm, List.take_left]
  rw [mainBytes23, bytesToBits_natToBytes]
  rw [show 8 * 23 = 6 + 178 from by norm_num, natToBits_pad 6 178 _ hv]
  have h := natToBits_bitsToNat (mainDigits latV lonV altV q1 q2 q3 q4 acc scaleV)
  rw [mainDigits_length] at h
  rw [h]

/-- C3 (amended): for every in-range input the 178-bit main bit string is
padded on the left — not on the right — when stored into 23 big-endian
bytes: the first 184 bits of the main codeword (the systematic data
bytes) are six zero bits followed by the whole 178-bit string, so byte 0
holds the first two payload bits in its two low bit positions and the
final data byte ends with the last bits of the scale field. -/
theorem C3_left_padding (lat lon alt q1 q2 q3 q4 scale : ℚ) (acc tag ver : ℤ)
    (hlat1 : -90 ≤ lat) (hlat2 : lat ≤ 90)
    (hlon1 : -180 ≤ lon) (hlon2 : lon ≤ 180)
    (halt1 : -10000 ≤ alt) (halt2 : alt ≤ 10000)
    (hq11 : -1 ≤ q1) (hq12 : q1 ≤ 1)
    (hq21 : -1 ≤ q2) (hq22 : q2 ≤ 1)
    (hq31 : -1 ≤ q3) (hq32 : q3 ≤ 1)
    (hq41 : -1 ≤ q4) (hq42 : q4 ≤ 1)
    (hsc1 : 0 ≤ scale) (hsc2 : scale ≤ 18 / 5)
    (hacc1 : 0 ≤ acc) (hacc2 : acc ≤ 3)
    (htag1 : 0 ≤ tag) (htag2 : tag ≤ 4095)
    (hver1 : 0 ≤ ver) (hver2 : ver ≤ 15) :
    ∃ d, tryEncode lat lon alt [q1, q2, q3, q4] scale acc tag ver = Except.ok d ∧
      d.main_data_bits.length = 178 ∧
      d.encoded_bits.take 184 = List.replicate 6 false ++ bcharDigits d.main_data_bits := by
  refine ⟨_, tryEncode_ok lat lon alt q1 q2 q3 q4 scale acc tag ver hlat1 hlat2 hlon1 hlon2
    halt1 halt2 hq11 hq12 hq21 hq22 hq31 hq32 hq41 hq42 hsc1 hsc2 hacc1 hacc2
    htag1 htag2 hver1 hver2, ?_, ?_⟩
  · rw [List.length_map, mainDigits_length]
  · rw [bcharDigits_map, codeword_take_184]

/-- C3 counterexample: at the in-range all-maximum input the first bit of
the 178-bit main string is 1 but the most significant bit of byte 0 of
the stored bytes (bit 0 of the codeword) is 0, and the low bits of the
final data byte (bit 183) carry payload, not zero padding. -/
theorem C3_counterexample :
    ((tryEncode 90 180 10000 [1, 1, 1, 1] (18 / 5) 3 4095 15).toOption.map
      (fun d => ((bcharDigits d.main_data_bits).getD 0 false,
                 d.encoded_bits.getD 0 false,
                 d.encoded_bits.getD 183 false))) = some (true, false, true) := by
  rw [tryEncode_ok 90 180 10000 1 1 1 1 (18 / 5) 3 4095 15 (by norm_num) (by norm_num)
    (by norm_num) (by norm_num) (by norm_num) (by norm_num) (by norm_num) (by norm_num)
    (by norm_num) (by norm_num) (by norm_num) (by norm_num) (by norm_num) (by norm_num)
    (by norm_num) (by norm_num) (by norm_num) (by norm_num) (by norm_num) (by norm_num)
    (by norm_num) (by norm_num)]
  rw [lat_value_max, lon_value_max, alt_value_max, quat_value_max, scale_value_max]
  decide

/-- Witness for C3 (amended) at a concrete in-range input. -/
theorem C3_witness :
    ∃ d, tryEncode 0 0 0 [0, 0, 0, 1] (9 / 25) 0 0 0 = Except.ok d ∧
      d.main_data_bits.length = 178 ∧
      d.encoded_bits.take 184 = List.replicate 6 false ++ bcharDigits d.main_data_bits :=
  C3_left_padding 0 0 0 0 0 0 1 (9 / 25) 0 0 0 (by norm_num) (by norm_num) (by norm_num)
    (by norm_num) (by norm_num) (by norm_num) (by norm_num) (by norm_num) (by norm_num)
    (by norm_num) (by norm_num) (by norm_num) (by norm_num) (by norm_num) (by norm_num)
    (by norm_num) (by norm_num) (by norm_num) (by norm_num) (by norm_num) (by norm_num)
    (by norm_num)

/-- With an oversized tag identifier the reserved byte conversion raises
OverflowError and the try block ends with that error. -/
theorem tryEncodeInts_tag_overflow (latV lonV altV q1 q2 q3 q4 acc scaleV tag ver : ℤ)
    (hlat1 : 0 ≤ latV) (hlat2 : latV < 2 ^ 35)
    (hlon1 : 0 ≤ lonV) (hlon2 : lonV < 2 ^ 36)
    (halt1 : 0 ≤ altV) (halt2 : altV < 2 ^ 25)
    (hq11 : 0 ≤ q1) (hq12 : q1 < 2 ^ 16)
    (hq21 : 0 ≤ q2) (hq22 : q2 < 2 ^ 16)
    (hq31 : 0 ≤ q3) (hq32 : q3 < 2 ^ 16)
    (hq41 : 0 ≤ q4) (hq42 : q4 < 2 ^ 16)
    (hacc1 : 0 ≤ acc) (hacc2 : acc < 2 ^ 2)
    (hsc1 : 0 ≤ scaleV) (hsc2 : scaleV < 2 ^ 16)
    (htag : 2 ^ 12 ≤ tag) (hver1 : 0 ≤ ver) (hver2 : ver < 2 ^ 4) :
    tryEncodeInts latV lonV altV [q1, q2, q3, q4] acc scaleV tag ver =
      Except.error PyErr.overflowError := by
  have hA := main_bits_eq latV lonV altV q1 q2 q3 q4 acc scaleV hlat1 hlat2 hlon1 hlon2
    halt1 halt2 hq11 hq12 hq21 hq22 hq31 hq32 hq41 hq42 hacc1 hacc2 hsc1 hsc2
  have hlen : ((mainDigits latV lonV altV q1 q2 q3 q4 acc scaleV).map BChar.bit).length =
      178 := by
    rw [List.length_map, mainDigits_length]
  have hparse : pyIntBase2 ((mainDigits latV lonV altV q1 q2 q3 q4 acc scaleV).map
      BChar.bit) = .ok ((bitsToNat (mainDigits latV lonV altV q1 q2 q3 q4 acc scaleV) : ℤ)) := by
    apply pyIntBase2_digits
    intro hemp
    rw [hemp] at hlen
    simp at hlen
  have htag0 : (0 : ℤ) ≤ tag := le_trans (by norm_num) htag
  have hBo : pyFormat tag 12 ++ pyFormat ver 4 =
      (pyBinDigits tag.toNat 12 ++ pyBinDigits ver.toNat 4).map BChar.bit := by
    rw [pyFormat_nonneg 12 htag0, pyFormat_nonneg 4 hver1, List.map_append]
  have hidlen : 0 < (pyBinDigits tag.toNat 12 ++ pyBinDigits ver.toNat 4).length := by
    rw [List.length_append]
    have := pyBinDigits_length_ge tag.toNat 12
    omega
  have hidparse := pyIntBase2_digits (pyBinDigits tag.toNat 12 ++ pyBinDigits ver.toNat 4)
    (by intro hemp; rw [hemp] at hidlen; simp at hidlen)
  have hvallarge : 2 ^ 16 ≤ bitsToNat (pyBinDigits tag.toNat 12 ++ pyBinDigits ver.toNat 4) := by
    rw [bitsToNat_append, bitsToNat_pyBinDigits]
    have hverlen : (pyBinDigits ver.toNat 4).length = 4 := by
      rw [pyBinDigits_of_lt (by omega), natToBits_length]
    rw [hverlen]
    have htagN : 2 ^ 12 ≤ tag.toNat := by omega
    have : 2 ^ 12 * 2 ^ 4 ≤ tag.toNat * 2 ^ 4 := Nat.mul_le_mul_right (2 ^ 4) htagN
    omega
  have hbytes_err : pyToBytes ((bitsToNat (pyBinDigits tag.toNat 12 ++
      pyBinDigits ver.toNat 4) : ℤ)) 2 = .error .overflowError := by
    rw [pyToBytes, if_neg (by exact_mod_cast Int.not_lt.2 (Int.ofNat_nonneg _)), if_neg]
    have : ((2 : ℤ) ^ 16) ≤ (bitsToNat (pyBinDigits tag.toNat 12 ++
        pyBinDigits ver.toNat 4) : ℤ) := by exact_mod_cast hvallarge
    intro hc
    norm_num at hc
    omega
  have e23 : (178 + 7) / 8 = 23 := by norm_num
  have e12 : (23 + 1) / 2 = 12 := by norm_num
  rw [tryEncodeInts, hA, hBo, hparse, exceptBind_ok, hlen, e23, e12, mainBytes_ok,
    exceptBind_ok, hidparse, exceptBind_ok, hbytes_err, exceptBind_err]

/-- C9: for any tag identifier above 4095 the 12-bit formatting widens
beyond 12 characters, the combined reserved value reaches 2^16, and the
2-byte conversion raises OverflowError, which the encoder's handler
(which catches only ValueError) does not catch: the call terminates with
the uncaught exception instead of returning an image or None. -/
theorem C9_tag_overflow_uncaught (lat lon alt q1 q2 q3 q4 scale : ℚ) (acc tag ver : ℤ)
    (hlat1 : -90 ≤ lat) (hlat2 : lat ≤ 90)
    (hlon1 : -180 ≤ lon) (hlon2 : lon ≤ 180)
    (halt1 : -10000 ≤ alt) (halt2 : alt ≤ 10000)
    (hq11 : -1 ≤ q1) (hq12 : q1 ≤ 1)
    (hq21 : -1 ≤ q2) (hq22 : q2 ≤ 1)
    (hq31 : -1 ≤ q3) (hq32 : q3 ≤ 1)
    (hq41 : -1 ≤ q4) (hq42 : q4 ≤ 1)
    (hsc1 : 0 ≤ scale) (hsc2 : scale ≤ 18 / 5)
    (hacc1 : 0 ≤ acc) (hacc2 : acc ≤ 3)
    (htag : 4095 < tag) (hver1 : 0 ≤ ver) (hver2 : ver ≤ 15) :
    12 < (pyFormat tag 12).length ∧
    (∃ v : ℤ, pyIntBase2 (pyFormat tag 12 ++ pyFormat ver 4) = Except.ok v ∧ 2 ^ 16 ≤ v) ∧
    (create_fiducial_marker lat lon alt [q1, q2, q3, q4] scale acc tag ver).raisedErr =
      some PyErr.overflowError := by
  have htag0 : (0 : ℤ) ≤ tag := by omega
  have htagN : 2 ^ 12 ≤ tag.toNat := by omega
  refine ⟨?_, ?_, ?_⟩
  · rw [pyFormat_nonneg 12 htag0, List.length_map, pyBinDigits, natToBits_length]
    have := bitLen_gt htagN
    omega
  · have hBo : pyFormat tag 12 ++ pyFormat ver 4 =
        (pyBinDigits tag.toNat 12 ++ pyBinDigits ver.toNat 4).map BChar.bit := by
      rw [pyFormat_nonneg 12 htag0, pyFormat_nonneg 4 hver1, List.map_append]
    have hidlen : 0 < (pyBinDigits tag.toNat 12 ++ pyBinDigits ver.toNat 4).length := by
      rw [List.length_append]
      have := pyBinDigits_length_ge tag.toNat 12
      omega
    have hidparse := pyIntBase2_digits (pyBinDigits tag.toNat 12 ++ pyBinDigits ver.toNat 4)
      (by intro hemp; rw [hemp] at hidlen; simp at hidlen)
    refine ⟨_, by rw [hBo, hidparse], ?_⟩
    have hvallarge : 2 ^ 16 ≤
        bitsToNat (pyBinDigits tag.toNat 12 ++ pyBinDigits ver.toNat 4) := by
      rw [bitsToNat_append, bitsToNat_pyBinDigits]
      have hverlen : (pyBinDigits ver.toNat 4).length = 4 := by
        rw [pyBinDigits_of_lt (by omega), natToBits_length]
      rw [hverlen]
      have : 2 ^ 12 * 2 ^ 4 ≤ tag.toNat * 2 ^ 4 := Nat.mul_le_mul_right (2 ^ 4) htagN
      omega
    exact_mod_cast hvallarge
  · rw [create_fiducial_marker, tryEncode]
    have hmap : [q1, q2, q3, q4].map quat_value =
        [quat_value q1, quat_value q2, quat_value q3, quat_value q4] := by simp
    rw [hmap]
    rw [tryEncodeInts_tag_overflow (lat_value lat) (lon_value lon) (alt_value alt)
      (quat_value q1) (quat_value q2) (quat_value q3) (quat_value q4) acc
      (scale_value scale) tag ver
      (lat_value_bounds hlat1 hlat2).1 (lat_value_bounds hlat1 hlat2).2
      (lon_value_bounds hlon1 hlon2).1 (lon_value_bounds hlon1 hlon2).2
      (alt_value_bounds halt1 halt2).1 (alt_value_bounds halt1 halt2).2
      (quat_value_bounds hq11 hq12).1 (quat_value_bounds hq11 hq12).2
      (quat_value_bounds hq21 hq22).1 (quat_value_bounds hq21 hq22).2
      (quat_value_bounds hq31 hq32).1 (quat_value_bounds hq31 hq32).2
      (quat_value_bounds hq41 hq42).1 (quat_value_bounds hq41 hq42).2
      hacc1 (by omega) (scale_value_bounds hsc1 hsc2).1 (scale_value_bounds hsc1 hsc2).2
      (by omega) hver1 (by omega)]
    rfl

/-- Witness for C9 at tag 4096. -/
theorem C9_witness :
    12 < (pyFormat 4096 12).length ∧
    (∃ v : ℤ, pyIntBase2 (pyFormat 4096 12 ++ pyFormat 0 4) = Except.ok v ∧ 2 ^ 16 ≤ v) ∧
    (create_fiducial_marker 0 0 0 [0, 0, 0, 0] 0 0 4096 0).raisedErr =
      some PyErr.overflowError :=
  C9_tag_overflow_uncaught 0 0 0 0 0 0 0 0 0 4096 0 (by norm_num) (by norm_num)
    (by norm_num) (by norm_num) (by norm_num) (by norm_num) (by norm_num) (by norm_num)
    (by norm_num) (by norm_num) (by norm_num) (by norm_num) (by norm_num) (by norm_num)
    (by norm_num) (by norm_num) (by norm_num) (by norm_num) (by norm_num) (by norm_num)
    (by norm_num)

/-- Zipping against a concatenation splits at the length of the first
part (truncation on both sides matches). -/
theorem zip_append_split {α β : Type} :
    ∀ (a b : List α) (c : List β),
      (a ++ b).zip c = a.zip c ++ b.zip (c.drop a.length) := by
  intro a
  induction a with
  | nil => intro b c; simp
  | cons x a ih =>
    intro b c
    cases c with
    | nil => simp
    | cons y c => simp [List.zip_cons_cons, ih]

/-- One column is the sequence of assignments of its visited cells. -/
theorem placeColumn_fst_eq (x : ℕ) :
    ∀ (ys : List ℕ) (g : Grid) (bits : List Bool),
      (placeColumn x g ys bits).1 =
        setMany g (((ys.filter (fun y => !reservedModule x y)).map (fun y => (x, y))).zip bits) := by
  intro ys
  induction ys with
  | nil => intro g bits; simp [placeColumn, setMany]
  | cons y ys ih =>
    intro g bits
    by_cases h : reservedModule x y = true
    · simp [placeColumn, h, ih]
    · cases bits with
      | nil => simp [placeColumn, h, setMany]
      | cons b rest =>
        rw [placeColumn, if_neg h]
        rw [ih (setG g y x (if b then 1 else 0)) rest]
        simp only [List.filter_cons, h, List.map_cons, List.zip_cons_cons]
        rfl

/-- The whole traversal is the sequence of assignments of the visit list
zipped with the bits. -/
theorem placeAll_fst_eq :
    ∀ (xs : List ℕ) (g : Grid) (bits : List Bool),
      (placeAll g xs bits).1 = setMany g ((visitList xs).zip bits) := by
  intro xs
  induction xs with
  | nil => intro g bits; simp [placeAll, visitList, setMany]
  | cons x xs ih =>
    intro g bits
    by_cases hx : x = 6
    · subst hx
      rw [placeAll, if_pos rfl, ih]
      simp [visitList, List.filter_cons]
    · have hvl : visitList (x :: xs) =
          ((visitCol x).map (fun y => (x, y))) ++ visitList xs := by
        simp [visitList, List.filter_cons, hx]
      have hcol := placeColumn_fst_eq x rowOrder g bits
      have hsnd := placeColumn_snd x rowOrder g bits
      rw [placeAll, if_neg hx]
      by_cases he : (placeColumn x g rowOrder bits).2.isEmpty = true
      · rw [if_pos he, hcol, hvl, zip_append_split]
        rw [List.isEmpty_iff] at he
        rw [hsnd] at he
        have hlm : ((visitCol x).map (fun y => (x, y))).length = (visitCol x).length :=
          List.length_map _ _
        rw [hlm]
        rw [show (visitCol x).length =
          ((rowOrder.filter (fun y => !reservedModule x y))).length from rfl]
        rw [he, List.zip_nil_right, List.append_nil]
        rfl
      · rw [if_neg he, ih, hcol, hsnd, hvl, zip_append_split]
        rw [setMany, setMany, setMany, List.foldl_append]
        rw [List.length_map]
        rfl

/-- Cells not assigned keep their value under a list of assignments. -/
theorem setMany_not_mem :
    ∀ (ps : List ((ℕ × ℕ) × Bool)) (g : Grid) (x y : ℕ),
      (x, y) ∉ ps.map Prod.fst → setMany g ps y x = g y x := by
  intro ps
  induction ps with
  | nil => intro g x y _; rfl
  | cons p ps ih =>
    intro g x y h
    simp only [List.map_cons, List.mem_cons] at h
    push_neg at h
    rw [setMany, List.foldl_cons]
    rw [show List.foldl (fun g p => setG g p.1.2 p.1.1 (if p.2 then 1 else 0))
      (setG g p.1.2 p.1.1 (if p.2 then 1 else 0)) ps =
      setMany (setG g p.1.2 p.1.1 (if p.2 then 1 else 0)) ps from rfl]
    rw [ih _ x y h.2, setG]
    have : ¬(y = p.1.2 ∧ x = p.1.1) := by
      rintro ⟨rfl, rfl⟩
      exact h.1 Prod.mk.eta
    simp [this]

/-- With distinct assigned cells, a cell assigned bit b ends with the
module value of b. -/
theorem setMany_mem :
    ∀ (ps : List ((ℕ × ℕ) × Bool)) (g : Grid) (x y : ℕ) (b : Bool),
      (ps.map Prod.fst).Nodup → ((x, y), b) ∈ ps →
      setMany g ps y x = (if b then 1 else 0) := by
  intro ps
  induction ps with
  | nil => intro g x y b _ h; simp at h
  | cons p ps ih =>
    intro g x y b hnd hmem
    simp only [List.map_cons, List.nodup_cons] at hnd
    rw [setMany, List.foldl_cons]
    rw [show List.foldl (fun g p => setG g p.1.2 p.1.1 (if p.2 then 1 else 0))
      (setG g p.1.2 p.1.1 (if p.2 then 1 else 0)) ps =
      setMany (setG g p.1.2 p.1.1 (if p.2 then 1 else 0)) ps from rfl]
    rcases List.mem_cons.mp hmem with heq | htail
    · subst heq
      rw [setMany_not_mem ps _ x y (by simpa using hnd.1), setG]
      simp
    · exact ih _ x y b hnd.2 htail

/-- The payload traversal visits pairwise distinct cells. -/
theorem payloadTraversal_nodup : payloadTraversal.Nodup := by decide

/-- C1 (amended): every main-payload bit placed in the grid is rendered
with the polarity 1 = black, 0 = white — the i-th traversal cell holds
the i-th codeword bit and is painted black exactly when that bit is 1 —
and this is the same color map applied to the finder patterns (the
finder corner module (0,0) has value 1 and is painted black). -/
theorem C1_placed_bit_rendering :
    ∀ (bits : List Bool) (i : ℕ), bits.length = 280 → i < 280 →
      placedGrid bits (payloadTraversal.getD i (0, 0)).2 (payloadTraversal.getD i (0, 0)).1 =
        (if bits.getD i false then 1 else 0) ∧
      moduleColor (placedGrid bits) (payloadTraversal.getD i (0, 0)).2
        (payloadTraversal.getD i (0, 0)).1 =
        (if bits.getD i false then Color.black else Color.white) ∧
      moduleColor (placedGrid bits) 0 0 = Color.black := by
  intro bits i hlen hi
  have htv : payloadTraversal.length = 280 := by decide
  have hi1 : i < payloadTraversal.length := by omega
  have hi2 : i < bits.length := by omega
  have hzlen : i < (payloadTraversal.zip bits).length := by
    rw [List.length_zip]
    omega
  have hmain : placedGrid bits (payloadTraversal.getD i (0, 0)).2
      (payloadTraversal.getD i (0, 0)).1 = (if bits.getD i false then 1 else 0) := by
    rw [placedGrid, placeAll_fst_eq]
    rw [show visitList colOrder = payloadTraversal from rfl]
    apply setMany_mem
    · rw [List.map_fst_zip _ _ (by omega)]
      exact payloadTraversal_nodup
    · have hz : (payloadTraversal.zip bits).getD i ((0, 0), false) =
          (payloadTraversal.getD i (0, 0), bits.getD i false) := by
        rw [List.getD_eq_getElem _ _ hzlen, List.getD_eq_getElem _ _ hi1,
          List.getD_eq_getElem _ _ hi2]
        exact List.getElem_zip
      rw [← hz, List.getD_eq_getElem _ _ hzlen]
      exact List.getElem_mem hzlen
  refine ⟨hmain, ?_, ?_⟩
  · rw [moduleColor, hmain]
    by_cases hb : bits.getD i false = true
    · simp [hb]
    · simp at hb
      simp [hb]
  · have hp : placedGrid bits 0 0 = layoutGrid 0 0 :=
      placeAll_fst colOrder layoutGrid bits 0 0 (Or.inr (Or.inr (by decide)))
    rw [moduleColor, hp]
    decide

/-- Witness for C1 (amended) at a concrete codeword and traversal index. -/
theorem C1_witness :
    placedGrid (List.replicate 280 true) (payloadTraversal.getD 0 (0, 0)).2
      (payloadTraversal.getD 0 (0, 0)).1 =
      (if (List.replicate 280 true).getD 0 false then 1 else 0) ∧
    moduleColor (placedGrid (List.replicate 280 true)) (payloadTraversal.getD 0 (0, 0)).2
      (payloadTraversal.getD 0 (0, 0)).1 =
      (if (List.replicate 280 true).getD 0 false then Color.black else Color.white) ∧
    moduleColor (placedGrid (List.replicate 280 true)) 0 0 = Color.black :=
  C1_placed_bit_rendering (List.replicate 280 true) 0 (by simp) (by norm_num)

/-- C1 counterexample: at the in-range all-maximum input the module at
grid cell (x = 20, y = 9) carries a main-payload bit of value 1 and is
painted black, not white as the claim states. -/
theorem C1_counterexample :
    ((tryEncode 90 180 10000 [1, 1, 1, 1] (18 / 5) 3 4095 15).toOption.map
      (fun d => (d.grid 9 20, moduleColor d.grid 9 20))) = some (1, Color.black) ∧
    Color.black ≠ Color.white := by
  constructor
  · rw [tryEncode_ok 90 180 10000 1 1 1 1 (18 / 5) 3 4095 15 (by norm_num) (by norm_num)
      (by norm_num) (by norm_num) (by norm_num) (by norm_num) (by norm_num) (by norm_num)
      (by norm_num) (by norm_num) (by norm_num) (by norm_num) (by norm_num) (by norm_num)
      (by norm_num) (by norm_num) (by norm_num) (by norm_num) (by norm_num) (by norm_num)
      (by norm_num) (by norm_num)]
    rw [lat_value_max, lon_value_max, alt_value_max, quat_value_max, scale_value_max]
    decide
  · decide

/-- Each cell occurs in exactly one pair of the reserved-area list, so
the first covering pair is the covering pair. -/
theorem cell_pairs_cells_nodup : (cell_pairs.flatMap (fun pr => [pr.1, pr.2])).Nodup := by
  decide

/-- Center colors agree for two cells with the same assignment whose
centers lie outside the module grid and share the composite color. -/
theorem centerColor_congr (idBits : List Bool) (g : Grid) (c1 c2 : ℕ × ℕ)
    (h1 : assignedBit idBits c1 = assignedBit idBits c2)
    (h2 : underMainGrid c1 = false) (h3 : underMainGrid c2 = false)
    (h4 : pointColorPre (cellCenter c1) = pointColorPre (cellCenter c2)) :
    centerColor idBits g c1 = centerColor idBits g c2 := by
  rw [centerColor, centerColor, h1, h2, h3, h4]
  simp

/-- C7: for every reserved bit string and every mirrored pair of the
38-entry cell list, both members receive the same assigned bit (the fill
loop paints them with one color, and unfilled pairs receive none), and
the rendered color at the center of the first cell equals the rendered
color at the center of the second (filled pairs share the fill color;
unfilled pairs both show the white interior of the restored snapshot,
their centers lying inside the inner disk and outside every spike and
outside the module grid). -/
theorem C7_reserved_mirror_pairs (idBits : List Bool) (g : Grid) :
    ∀ pr ∈ cell_pairs,
      assignedBit idBits pr.1 = assignedBit idBits pr.2 ∧
      centerColor idBits g pr.1 = centerColor idBits g pr.2 := by
  intro pr hpr
  fin_cases hpr <;>
    exact ⟨rfl, centerColor_congr idBits g _ _ rfl (by decide) (by decide) (by decide)⟩

/-- Witness for C7 at the first pair and a concrete bit string. -/
theorem C7_witness :
    assignedBit (List.replicate 24 true) (15, 32) =
      assignedBit (List.replicate 24 true) (21, 4) ∧
    centerColor (List.replicate 24 true) layoutGrid (15, 32) =
      centerColor (List.replicate 24 true) layoutGrid (21, 4) :=
  C7_reserved_mirror_pairs (List.replicate 24 true) layoutGrid ((15, 32), (21, 4))
    (by decide)
